import Mathlib

/-!
Verification of the matrix-basic library (src/src/lib.rs) against its
natural-language specification.  The Rust code is shallowly embedded:
matrices are lists of rows, in-place loops become folds or structural
recursions, fallible operations return Except or Option, and the panicking
indexing of Rust is modelled either with defaulted access (getD, used where
the surrounding claims guarantee in-bounds access) or with checked Option
valued variants (used for the safety claims).
-/

/-- Square matrices over Fin n from the mathematical library, used as the
semantic model for the determinant and inverse claims. -/
abbrev FinMat (n : Nat) (α : Type) := Matrix (Fin n) (Fin n) α

namespace MatrixBasic

/-- Error type of the library.  The errors module source file is absent from
the repository snapshot; the three variants are modelled from the spec
(section 7) and from their construction sites in lib.rs. -/
inductive MatrixError where
  | UnequalRows
  | NotSquare
  | Singular
deriving DecidableEq, Repr

/-- Rust struct Matrix: a vector of row vectors. -/
structure Matrix (α : Type) where
  entries : List (List α)
deriving DecidableEq, Repr

variable {α : Type}

/-- Row i of a list of rows; the empty row when out of range (Rust panics on
an out-of-range row index, so theorems only use this in range). -/
def rowAt (rows : List (List α)) (i : Nat) : List α := rows.getD i []

/-- Entry (i, j) of a list of rows, defaulting to 0 out of range. -/
def elt [Zero α] (rows : List (List α)) (i j : Nat) : α := (rowAt rows i).getD j 0

/-- All rows have length w. -/
def Rect (rows : List (List α)) (w : Nat) : Prop := ∀ r ∈ rows, r.length = w

/-- The rectangularity invariant of a matrix: every row has the length of
the first row, the width. -/
def IsRect (m : Matrix α) : Prop := Rect m.entries ((rowAt m.entries 0).length)

namespace Matrix

/-- Matrix::height. -/
def height (m : Matrix α) : Nat := m.entries.length

/-- Matrix::width, the length of the first row (Rust indexes entries[0] and
panics on a rowless matrix; here the width of a rowless matrix is 0). -/
def width (m : Matrix α) : Nat := (rowAt m.entries 0).length

/-- Entry (i, j) of a matrix. -/
def entry [Zero α] (m : Matrix α) (i j : Nat) : α := elt m.entries i j

/-- Matrix::is_square. -/
def is_square (m : Matrix α) : Bool := m.height == m.width

/-- Matrix::rows. -/
def rows (m : Matrix α) : List (List α) := m.entries

/-- Matrix::from: checks that every row has the length of the first row
(the Rust loop breaks at the first mismatch, which is List.all). -/
def from' (entries : List (List α)) : Except MatrixError (Matrix α) :=
  let row_len := (rowAt entries 0).length
  if entries.all (fun row => row.length == row_len) then
    .ok ⟨entries⟩
  else
    .error .UnequalRows

/-- Matrix::transpose: for i in 0..width, push the list of entries row[i]. -/
def transpose [Zero α] (m : Matrix α) : Matrix α :=
  ⟨(List.range m.width).map (fun i => m.entries.map (fun row => row.getD i 0))⟩

/-- Matrix::columns. -/
def columns [Zero α] (m : Matrix α) : List (List α) := m.transpose.entries

/-- One row of Matrix::submatrix: keep the entries whose index differs from
col (the Rust inner loop over enumerate). -/
def rowRemove (l : List α) (col : Nat) : List α :=
  (l.enum.filter (fun p => p.1 ≠ col)).map Prod.snd

/-- Matrix::submatrix: keep the rows whose index differs from row, removing
position col from each (the Rust double loop over enumerate). -/
def submatrix (m : Matrix α) (row col : Nat) : Matrix α :=
  ⟨((m.entries.enum.filter (fun p => p.1 ≠ row)).map (fun p => rowRemove p.2 col))⟩

/-- Matrix::zero. -/
def zero [Zero α] (height width : Nat) : Matrix α :=
  ⟨(List.range height).map (fun _ => (List.range width).map (fun _ => (0 : α)))⟩

/-- Matrix::identity: the zero matrix with ones written on the diagonal. -/
def identity [Zero α] [One α] (size : Nat) : Matrix α :=
  ⟨((zero size size : Matrix α)).entries.enum.map (fun p => p.2.set p.1 1)⟩

/-- Matrix::diagonal_matrix. -/
def diagonal_matrix [Zero α] (diag : List α) : Matrix α :=
  ⟨((zero diag.length diag.length : Matrix α)).entries.enum.map
    (fun p => p.2.set p.1 (diag.getD p.1 0))⟩

/-- Matrix::trace: entries[0][0] plus the diagonal entries 1..height. -/
def trace [Zero α] [Add α] (m : Matrix α) : Except MatrixError α :=
  if m.is_square then
    .ok (((List.range (m.height - 1)).map (fun i => i + 1)).foldl
      (fun out i => out + m.entry i i) (m.entry 0 0))
  else
    .error .NotSquare

/-- Matrix::mul_scalar (in place in Rust; functionally here). -/
def mul_scalar [Mul α] (m : Matrix α) (scalar : α) : Matrix α :=
  ⟨m.entries.map (fun row => row.map (fun x => x * scalar))⟩

/-- The Mul implementation: requires width of the left factor to equal the
height of the right one and panics otherwise (modelled by none); each result
entry starts from row[0] * col[0] and accumulates row[i] * col[i] for
i in 1..width. -/
def mul [Zero α] [Mul α] [Add α] (a b : Matrix α) : Option (Matrix α) :=
  let w := a.width
  if w ≠ b.height then none
  else some ⟨a.rows.map (fun row =>
    b.columns.map (fun col =>
      (List.range' 1 (w - 1)).foldl
        (fun prod i => prod + row.getD i 0 * col.getD i 0)
        (row.getD 0 0 * col.getD 0 0)))⟩

/-- The Add implementation: requires equal dimensions and panics otherwise
(modelled by none). -/
def add [Add α] [Zero α] (a b : Matrix α) : Option (Matrix α) :=
  if a.height = b.height ∧ a.width = b.width then
    some ⟨a.entries.enum.map (fun p =>
      p.2.enum.map (fun q => q.2 + elt b.entries p.1 q.1))⟩
  else none

/-- The Neg implementation. -/
def neg [Neg α] (a : Matrix α) : Matrix α :=
  ⟨a.entries.map (fun row => row.map (fun x => -x))⟩

/-- The Sub implementation: A + (-B) after the dimension check. -/
def sub [Add α] [Zero α] [Neg α] (a b : Matrix α) : Option (Matrix α) :=
  if a.height = b.height ∧ a.width = b.width then add a (neg b)
  else none

end Matrix

/-- MatrixFrom::matrix_from: apply the element conversion everywhere. -/
def matrix_from {β : Type} (f : α → β) (m : Matrix α) : Matrix β :=
  ⟨m.entries.map (fun row => row.map f)⟩

/-- Result::unwrap, defaulting to 0 instead of the Rust panic on Err; the
determinant only unwraps results that are Ok. -/
def unwrap [Zero α] : Except MatrixError α → α
  | .ok a => a
  | .error _ => 0

namespace Matrix

/-- Matrix::det: recursive cofactor expansion along the first row, the sum
starting from zero and adding the minor term at even column indices and
subtracting it at odd ones. -/
def det [Ring α] (m : Matrix α) : Except MatrixError α :=
  if m.is_square then
    .ok (if m.width = 1 then m.entry 0 0
      else (List.range m.width).attach.foldl (fun out i =>
        if i.1 % 2 = 0 then
          out + m.entry 0 i.1 * unwrap ((m.submatrix 0 i.1).det)
        else
          out - m.entry 0 i.1 * unwrap ((m.submatrix 0 i.1).det)) 0)
  else .error .NotSquare
termination_by m.entries.length
decreasing_by
all_goals
  obtain ⟨i, hmem⟩ := i
  simp only [List.mem_range] at hmem
  simp only [Matrix.submatrix, List.length_map]
  rcases hm : m.entries with _ | ⟨a, t⟩
  · exfalso
    have hw : m.width = 0 := by simp [Matrix.width, rowAt, hm]
    omega
  · have h1 : (((a :: t).enum.filter (fun p => p.1 ≠ 0)).length) ≤ t.length := by
      rw [List.enum_cons, List.filter_cons]
      have hd : (decide (((0 : Nat), a).1 ≠ 0)) = false := by simp
      rw [hd]
      simp only [Bool.false_eq_true, if_false]
      calc ((List.enumFrom 1 t).filter (fun p => decide (p.1 ≠ 0))).length
          ≤ (List.enumFrom 1 t).length := List.length_filter_le _ _
        _ = t.length := List.enumFrom_length
    simp only [hm, List.length_cons]
    omega

end Matrix

/-- Row j minus the pivot row times a coefficient, restricted to the columns
start..w: the innermost k loop of the elimination routines. -/
def rowOp [Ring α] (rowj rowi : List α) (c : α) (start w : Nat) : List α :=
  (List.range' start (w - start)).foldl
    (fun rj k => rj.set k (rj.getD k 0 - rowi.getD k 0 * c)) rowj

/-- The row swap Vec::swap. -/
def swapRows (rows : List (List α)) (i j : Nat) : List (List α) :=
  (rows.set i (rowAt rows j)).set j (rowAt rows i)

/-- The j loop of forward elimination below pivot row i with pivot column c:
each lower row j gets rowOp with coefficient rows[j][c] / rows[i][c],
restricted to the columns c..w. -/
def elimBelowCol [Field α] [DecidableEq α] (rows : List (List α)) (i c h w : Nat) :
    List (List α) :=
  (List.range' (i + 1) (h - (i + 1))).foldl
    (fun rs j =>
      rs.set j (rowOp (rowAt rs j) (rowAt rs i) (elt rs j c / elt rs i c) c w)) rows

/-- The downward search for a row j in (i+1)..h with a nonzero entry in
column c. -/
def findPivotRow [Zero α] [DecidableEq α] (rows : List (List α)) (i c h : Nat) :
    Option Nat :=
  (List.range' (i + 1) (h - (i + 1))).find? (fun j => elt rows j c ≠ 0)

/-- The final loop of det_in_field: multiplier times every diagonal entry,
via iter().enumerate(). -/
def diagFold [Mul α] [Zero α] (rows : List (List α)) (m0 : α) : α :=
  rows.enum.foldl (fun acc p => acc * p.2.getD p.1 0) m0

/-- The main loop of Matrix::det_in_field, at working row i with current
multiplier: swap in a nonzero pivot (negating the multiplier), return 0 when
the pivot column is zero from row i down, otherwise eliminate below and
continue; after the last iteration multiply the diagonal entries. -/
def detFieldGo [Field α] [DecidableEq α] (h w : Nat) :
    Nat → Nat → List (List α) → α → α
  | 0, _, rows, mult => diagFold rows mult
  | fuel + 1, i, rows, mult =>
      if i < h - 1 then
        if elt rows i i = 0 then
          match findPivotRow rows i i h with
          | some j =>
              detFieldGo h w fuel (i + 1) (elimBelowCol (swapRows rows i j) i i h w) (-mult)
          | none => 0
        else detFieldGo h w fuel (i + 1) (elimBelowCol rows i i h w) mult
      else diagFold rows mult

/-- The main loop of Matrix::row_echelon: break once i + offset reaches the
width; on a pivot column that is zero at and below row i, increment the
offset and fall through to the elimination with the incremented offset
(exactly as the source does). -/
def rowEchelonGo [Field α] [DecidableEq α] (h w : Nat) :
    Nat → Nat → Nat → List (List α) → List (List α)
  | 0, _, _, rows => rows
  | fuel + 1, i, off, rows =>
      if i < h - 1 then
        if w ≤ i + off then rows
        else
          if elt rows i (i + off) = 0 then
            match findPivotRow rows i (i + off) h with
            | some j =>
                rowEchelonGo h w fuel (i + 1) off
                  (elimBelowCol (swapRows rows i j) i (i + off) h w)
            | none =>
                rowEchelonGo h w fuel (i + 1) (off + 1)
                  (elimBelowCol rows i (i + off + 1) h w)
          else rowEchelonGo h w fuel (i + 1) off (elimBelowCol rows i (i + off) h w)
      else rows

/-- The while loop of reduced_row_echelon scanning for the first nonzero
entry of a row at or after position off: its index, or row.length when the
scan runs off the row (where the source panics on an out-of-range index). -/
def scanNonzero [Zero α] [DecidableEq α] (row : List α) (off : Nat) : Nat :=
  match (List.range' off (row.length - off)).find? (fun k => row.getD k 0 ≠ 0) with
  | some k => k
  | none => row.length

/-- Divide the entries of a row from position k on by the entry at k
(iter_mut().skip(k) with divisor row[k]). -/
def divideFrom [Field α] (row : List α) (k : Nat) : List α :=
  row.take k ++ (row.drop k).map (fun x => x / row.getD k 0)

/-- The row loop of reduced_row_echelon with its running offset. -/
def rreGo [Field α] [DecidableEq α] : List (List α) → Nat → List (List α)
  | [], _ => []
  | row :: rest, off =>
      divideFrom row (scanNonzero row off) :: rreGo rest (scanNonzero row off + 1)

namespace Matrix

/-- Matrix::det_in_field. -/
def det_in_field [Field α] [DecidableEq α] (m : Matrix α) : Except MatrixError α :=
  if m.is_square then .ok (detFieldGo m.height m.width (m.height - 1) 0 m.entries 1)
  else .error .NotSquare

/-- Matrix::row_echelon. -/
def row_echelon [Field α] [DecidableEq α] (m : Matrix α) : Matrix α :=
  ⟨rowEchelonGo m.height m.width (m.height - 1) 0 0 m.entries⟩

/-- Matrix::column_echelon. -/
def column_echelon [Field α] [DecidableEq α] (m : Matrix α) : Matrix α :=
  m.transpose.row_echelon.transpose

/-- Matrix::reduced_row_echelon. -/
def reduced_row_echelon [Field α] [DecidableEq α] (m : Matrix α) : Matrix α :=
  ⟨rreGo m.row_echelon.entries 0⟩

end Matrix

/-- The j loop of the forward elimination of Matrix::inverse: the same row
operation is applied to the cloned entries (restricted to columns i..w) and,
with the same coefficient, to the companion matrix on its full width. -/
def invElimBelow [Field α] [DecidableEq α] (rows out : List (List α)) (i h w : Nat) :
    List (List α) × List (List α) :=
  (List.range' (i + 1) (h - (i + 1))).foldl
    (fun p j =>
      (p.1.set j (rowOp (rowAt p.1 j) (rowAt p.1 i) (elt p.1 j i / elt p.1 i i) i w),
       p.2.set j (rowOp (rowAt p.2 j) (rowAt p.2 i) (elt p.1 j i / elt p.1 i i) 0 w)))
    (rows, out)

/-- The forward elimination loop of Matrix::inverse; a pivot column that is
zero from the working row down means the matrix is singular. -/
def invFwdGo [Field α] [DecidableEq α] (h w : Nat) :
    Nat → Nat → List (List α) → List (List α) →
      Except MatrixError (List (List α) × List (List α))
  | 0, _, rows, out => .ok (rows, out)
  | fuel + 1, i, rows, out =>
      if i < h - 1 then
        if elt rows i i = 0 then
          match findPivotRow rows i i h with
          | some j =>
              invFwdGo h w fuel (i + 1)
                (invElimBelow (swapRows rows i j) (swapRows out i j) i h w).1
                (invElimBelow (swapRows rows i j) (swapRows out i j) i h w).2
          | none => .error .Singular
        else
          invFwdGo h w fuel (i + 1) (invElimBelow rows out i h w).1
            (invElimBelow rows out i h w).2
      else .ok (rows, out)

/-- The normalization loop of Matrix::inverse: row i of the cloned entries is
divided from position i on by the diagonal entry, the companion row on its
full width; a zero diagonal entry means the matrix is singular. -/
def invNormGo [Field α] [DecidableEq α] :
    List Nat → List (List α) → List (List α) →
      Except MatrixError (List (List α) × List (List α))
  | [], rows, out => .ok (rows, out)
  | i :: is, rows, out =>
      if elt rows i i = 0 then .error .Singular
      else
        invNormGo is (rows.set i (divideFrom (rowAt rows i) i))
          (out.set i ((rowAt out i).map (fun x => x / elt rows i i)))

/-- The inner j loop of the backward elimination of Matrix::inverse, applied
to a target matrix with the coefficients read from the (unmodified) cloned
entries. -/
def invBackInner [Ring α] (rows : List (List α)) (w i : Nat) :
    List Nat → List (List α) → List (List α)
  | [], out => out
  | j :: js, out =>
      invBackInner rows w i js (out.set j (rowOp (rowAt out j) (rowAt out i) (elt rows j i) 0 w))

/-- The outer loop of the backward elimination, i descending from h-1 to 1,
j descending from i-1 to 0. -/
def invBackGo [Ring α] (rows : List (List α)) (w : Nat) :
    Nat → List (List α) → List (List α)
  | 0, out => out
  | i + 1, out => invBackGo rows w i (invBackInner rows w (i + 1) (List.range (i + 1)).reverse out)

namespace Matrix

/-- Matrix::inverse. -/
def inverse [Field α] [DecidableEq α] (m : Matrix α) : Except MatrixError (Matrix α) :=
  if m.is_square then
    match invFwdGo m.height m.width (m.height - 1) 0 m.entries
        (identity m.height : Matrix α).entries with
    | .error e => .error e
    | .ok (rows, out) =>
        match invNormGo (List.range m.height) rows out with
        | .error e => .error e
        | .ok (rows2, out2) => .ok ⟨invBackGo rows2 m.width (m.height - 1) out2⟩
  else .error .NotSquare

end Matrix

/-! ### Checked variants

The Rust loops index with unchecked panics; the following Option valued
variants of row_echelon and reduced_row_echelon return none exactly when an
element access is out of bounds or a pivot division has a zero divisor, and
are used for the safety claims. -/

/-- Checked entry access. -/
def eltC (rows : List (List α)) (i j : Nat) : Option α :=
  match rows[i]? with
  | none => none
  | some r => r[j]?

/-- Checked rowOp: every access of the k loop is in bounds. -/
def rowOpC [Ring α] (rowj rowi : List α) (c : α) (start w : Nat) : Option (List α) :=
  (List.range' start (w - start)).foldlM
    (fun rj k =>
      match rj[k]?, rowi[k]? with
      | some x, some y => some (rj.set k (x - y * c))
      | _, _ => none) rowj

/-- Checked elimBelowCol: the ratio accesses are in bounds, the pivot is
nonzero, and the row updates are in bounds. -/
def elimBelowColC [Field α] [DecidableEq α] (rows : List (List α)) (i c h w : Nat) :
    Option (List (List α)) :=
  (List.range' (i + 1) (h - (i + 1))).foldlM
    (fun rs j =>
      match eltC rs j c, eltC rs i c, rs[i]?, rs[j]? with
      | some num, some den, some rowi, some rowj =>
          if den = 0 then none
          else
            match rowOpC rowj rowi (num / den) c w with
            | some newj => some (rs.set j newj)
            | none => none
      | _, _, _, _ => none) rows

/-- Checked pivot search: each examined access is in bounds. -/
def findPivotRowC [Zero α] [DecidableEq α] (rows : List (List α)) (c : Nat) :
    List Nat → Option (Option Nat)
  | [] => some none
  | j :: js =>
      match eltC rows j c with
      | none => none
      | some x => if x ≠ 0 then some (some j) else findPivotRowC rows c js

/-- Checked swap: both indices in bounds. -/
def swapRowsC (rows : List (List α)) (i j : Nat) : Option (List (List α)) :=
  match rows[i]?, rows[j]? with
  | some _, some _ => some (swapRows rows i j)
  | _, _ => none

/-- Checked main loop of row_echelon. -/
def rowEchelonGoC [Field α] [DecidableEq α] (h w : Nat) :
    Nat → Nat → Nat → List (List α) → Option (List (List α))
  | 0, _, _, rows => some rows
  | fuel + 1, i, off, rows =>
      if i < h - 1 then
        if w ≤ i + off then some rows
        else
          match eltC rows i (i + off) with
          | none => none
          | some piv =>
            if piv = 0 then
              match findPivotRowC rows (i + off) (List.range' (i + 1) (h - (i + 1))) with
              | none => none
              | some (some j) =>
                  match swapRowsC rows i j with
                  | none => none
                  | some rs =>
                      match elimBelowColC rs i (i + off) h w with
                      | none => none
                      | some rs2 => rowEchelonGoC h w fuel (i + 1) off rs2
              | some none =>
                  match elimBelowColC rows i (i + off + 1) h w with
                  | none => none
                  | some rs2 => rowEchelonGoC h w fuel (i + 1) (off + 1) rs2
            else
              match elimBelowColC rows i (i + off) h w with
              | none => none
              | some rs2 => rowEchelonGoC h w fuel (i + 1) off rs2
      else some rows

/-- Checked Matrix::row_echelon. -/
def row_echelonC [Field α] [DecidableEq α] (m : Matrix α) : Option (Matrix α) :=
  match rowEchelonGoC m.height m.width (m.height - 1) 0 0 m.entries with
  | some rs => some ⟨rs⟩
  | none => none

/-- Checked while loop of reduced_row_echelon: none when the scan runs off
the end of the row (the source panics there). -/
def scanNonzeroC [Zero α] [DecidableEq α] (row : List α) :
    Nat → Nat → Option Nat
  | 0, _ => none
  | fuel + 1, off =>
      match row[off]? with
      | none => none
      | some x => if x = 0 then scanNonzeroC row fuel (off + 1) else some off

/-- Checked row loop of reduced_row_echelon. -/
def rreGoC [Field α] [DecidableEq α] : List (List α) → Nat → Option (List (List α))
  | [], _ => some []
  | row :: rest, off =>
      match scanNonzeroC row (row.length + 1) off with
      | none => none
      | some k =>
          match rreGoC rest (k + 1) with
          | none => none
          | some rs => some (divideFrom row k :: rs)

/-- Checked Matrix::reduced_row_echelon. -/
def reduced_row_echelonC [Field α] [DecidableEq α] (m : Matrix α) : Option (Matrix α) :=
  match rreGoC m.row_echelon.entries 0 with
  | some rs => some ⟨rs⟩
  | none => none

/-! ### Specification side definitions and the semantic model -/

/-- The index of the leading nonzero entry of a row, scanning from the left
end as the spec words describe. -/
def leadIdx [Zero α] [DecidableEq α] (row : List α) : Option Nat :=
  (List.range row.length).find? (fun k => row.getD k 0 ≠ 0)

/-- Modelled from the spec sentence of C5: each row is divided, from its
leading nonzero entry rightward, by that leading entry. -/
def specNormalizeRow [Field α] [DecidableEq α] (row : List α) : List α :=
  match leadIdx row with
  | some k => divideFrom row k
  | none => row

/-- A well formed echelon list of rows for the normalization pass: every row
has a leading nonzero entry and the leading indices strictly increase. -/
def wellFormedEchelon [Zero α] [DecidableEq α] : List (List α) → Nat → Bool
  | [], _ => true
  | row :: rest, off =>
      match leadIdx row with
      | none => false
      | some k => off ≤ k && wellFormedEchelon rest (k + 1)

/-- Every examined pivot column has a nonzero entry at or below the working
row throughout the run of row_echelon (under this condition the offset never
moves, so it is pinned at 0 here). -/
def goodPivots [Field α] [DecidableEq α] (h w : Nat) :
    Nat → Nat → List (List α) → Bool
  | 0, _, _ => true
  | fuel + 1, i, rows =>
      if i < h - 1 then
        if w ≤ i then true
        else
          if elt rows i i = 0 then
            match findPivotRow rows i i h with
            | some j => goodPivots h w fuel (i + 1) (elimBelowCol (swapRows rows i j) i i h w)
            | none => false
          else goodPivots h w fuel (i + 1) (elimBelowCol rows i i h w)
      else true

/-- The semantic model: the Fin indexed matrix of a list of rows. -/
def toMat [Zero α] (rows : List (List α)) (n : Nat) : FinMat n α :=
  Matrix.of (fun i j => elt rows i.1 j.1)

/-- Forward elimination invariant: in every column left of i, the entries
below the diagonal are zero. -/
def TriBelow [Zero α] (rows : List (List α)) (i h : Nat) : Prop :=
  ∀ c r : Nat, c < i → c < r → r < h → elt rows r c = 0

end MatrixBasic

namespace MatrixBasic

variable {α : Type}

/-! ### List toolkit -/

theorem foldl_invariant {β γ : Type} (P : β → Prop) (f : β → γ → β) (l : List γ)
    (b : β) (hb : P b) (hf : ∀ x c, P x → c ∈ l → P (f x c)) : P (l.foldl f b) := by
  induction l generalizing b with
  | nil => exact hb
  | cons a t ih =>
      exact ih (f b a) (hf b a hb (by simp)) (fun x c hx hc => hf x c hx (by simp [hc]))

theorem enumFrom_filter_ne_of_lt (l : List α) (n k : Nat) (hk : k < n) :
    ((l.enumFrom n).filter (fun p => p.1 ≠ k)).map Prod.snd = l := by
  induction l generalizing n with
  | nil => rfl
  | cons a t ih =>
      rw [List.enumFrom_cons, List.filter_cons]
      have hd : (decide ((n, a).1 ≠ k)) = true := by
        simp only [decide_eq_true_eq]
        omega
      rw [hd]
      simp only [if_true]
      rw [List.map_cons, ih (n + 1) (by omega)]

theorem enumFrom_filter_ne_erase (l : List α) (n i : Nat) :
    ((l.enumFrom n).filter (fun p => p.1 ≠ (n + i))).map Prod.snd = l.eraseIdx i := by
  induction l generalizing n i with
  | nil => rfl
  | cons a t ih =>
      cases i with
      | zero =>
          rw [List.enumFrom_cons, List.filter_cons]
          have hd : (decide ((n, a).1 ≠ (n + 0))) = false := by
            simp only [decide_eq_false_iff_not]
            omega
          rw [hd]
          simp only [Bool.false_eq_true, if_false, List.eraseIdx_cons_zero]
          exact enumFrom_filter_ne_of_lt t (n + 1) (n + 0) (by omega)
      | succ j =>
          rw [List.enumFrom_cons, List.filter_cons]
          have hd : (decide ((n, a).1 ≠ (n + (j + 1)))) = true := by
            simp only [decide_eq_true_eq]
            omega
          rw [hd]
          simp only [if_true]
          rw [List.map_cons, List.eraseIdx_cons_succ]
          have := ih (n + 1) j
          rw [show n + 1 + j = n + (j + 1) by omega] at this
          rw [this]

theorem enum_filter_ne_erase (l : List α) (i : Nat) :
    ((l.enum.filter (fun p => p.1 ≠ i)).map Prod.snd) = l.eraseIdx i := by
  have := enumFrom_filter_ne_erase l 0 i
  simpa using this

theorem rowRemove_eq_eraseIdx (l : List α) (c : Nat) :
    Matrix.rowRemove l c = l.eraseIdx c := by
  unfold Matrix.rowRemove
  exact enum_filter_ne_erase l c

theorem submatrix_entries (m : Matrix α) (r c : Nat) :
    (m.submatrix r c).entries
      = (m.entries.eraseIdx r).map (fun row => row.eraseIdx c) := by
  show ((m.entries.enum.filter (fun p => p.1 ≠ r)).map (fun p => Matrix.rowRemove p.2 c))
      = (m.entries.eraseIdx r).map (fun row => row.eraseIdx c)
  have h1 : ((m.entries.enum.filter (fun p => p.1 ≠ r)).map (fun p => Matrix.rowRemove p.2 c))
      = (((m.entries.enum.filter (fun p => p.1 ≠ r)).map Prod.snd).map
          (fun row => Matrix.rowRemove row c)) := by
    rw [List.map_map]
    rfl
  rw [h1, enum_filter_ne_erase]
  exact List.map_congr_left (fun row _ => rowRemove_eq_eraseIdx row c)

/-- Rect is equivalent to a statement about indexed rows. -/
theorem rect_iff {rows : List (List α)} {w : Nat} :
    Rect rows w ↔ ∀ i, (hi : i < rows.length) → rows[i].length = w := by
  constructor
  · intro h i hi
    exact h rows[i] (List.getElem_mem hi)
  · intro h r hr
    rcases List.mem_iff_getElem.1 hr with ⟨i, hi, rfl⟩
    exact h i hi

/-! ### C7: construction -/

/-- C7: for every non-empty collection of rows, from returns Ok of a matrix
holding exactly those rows when all rows share the same length, and the
UnequalRows error otherwise. -/
theorem from_spec (entries : List (List α)) (hne : entries ≠ []) :
    ((∀ r1 ∈ entries, ∀ r2 ∈ entries, r1.length = r2.length) →
      Matrix.from' entries = .ok ⟨entries⟩) ∧
    ((¬ ∀ r1 ∈ entries, ∀ r2 ∈ entries, r1.length = r2.length) →
      Matrix.from' entries = .error .UnequalRows) := by
  obtain ⟨e, t, rfl⟩ : ∃ e t, entries = e :: t := by
    cases entries with
    | nil => exact absurd rfl hne
    | cons e t => exact ⟨e, t, rfl⟩
  have hrl : (rowAt (e :: t) 0).length = e.length := rfl
  constructor
  · intro hall
    have hcond : (e :: t).all (fun row => row.length == (rowAt (e :: t) 0).length) = true := by
      rw [List.all_eq_true]
      intro row hrow
      rw [hrl, beq_iff_eq]
      exact hall row hrow e (by simp)
    unfold Matrix.from'
    rw [if_pos hcond]
  · intro hnall
    have hcond : ¬((e :: t).all (fun row => row.length == (rowAt (e :: t) 0).length) = true) := by
      intro hcontra
      rw [List.all_eq_true] at hcontra
      apply hnall
      intro r1 h1 r2 h2
      have e1 := hcontra r1 h1
      have e2 := hcontra r2 h2
      rw [hrl, beq_iff_eq] at e1 e2
      rw [e1, e2]
    unfold Matrix.from'
    rw [if_neg hcond]

/-- C7 witness: concrete instances of both cases. -/
theorem from_spec_witness :
    Matrix.from' ([[1, 2, 3], [4, 5, 6]] : List (List Int)) = .ok ⟨[[1, 2, 3], [4, 5, 6]]⟩ ∧
    Matrix.from' ([[1, 2, 3], [4, 5]] : List (List Int)) = .error .UnequalRows := by
  constructor
  · exact (from_spec [[1, 2, 3], [4, 5, 6]] (by simp)).1 (by decide)
  · exact (from_spec [[1, 2, 3], [4, 5]] (by simp)).2 (by decide)

/-! ### C9: submatrix -/

/-- C9: submatrix never fails: it returns exactly the rows whose index
differs from the given row, each with the entry at the given column index
removed; an out-of-range row index removes no row and (on a rectangular
matrix) an out-of-range column index removes no column, so the result is
then larger than the documented one-row-one-column removal. -/
theorem submatrix_spec (m : Matrix α) (r c : Nat) :
    (m.submatrix r c).entries
        = (m.entries.eraseIdx r).map (fun row => row.eraseIdx c) ∧
    (m.height ≤ r →
      (m.submatrix r c).entries = m.entries.map (fun row => row.eraseIdx c)) ∧
    (∀ w, Rect m.entries w → w ≤ c →
      (m.submatrix r c).entries = m.entries.eraseIdx r) := by
  refine ⟨submatrix_entries m r c, ?_, ?_⟩
  · intro hr
    rw [submatrix_entries m r c, List.eraseIdx_eq_self.2 hr]
  · intro w hrect hc
    rw [submatrix_entries m r c]
    have : ∀ row ∈ m.entries.eraseIdx r, row.eraseIdx c = row := by
      intro row hrow
      have hmem : row ∈ m.entries := by
        rcases List.mem_iff_getElem.1 hrow with ⟨i, hi, rfl⟩
        rw [List.getElem_eraseIdx]
        split
        · exact List.getElem_mem _
        · exact List.getElem_mem _
      rw [List.eraseIdx_eq_self]
      rw [hrect row hmem]
      exact hc
    calc (m.entries.eraseIdx r).map (fun row => row.eraseIdx c)
        = (m.entries.eraseIdx r).map id := List.map_congr_left this
      _ = m.entries.eraseIdx r := List.map_id _

/-- C9 witness: with both indices out of range the submatrix of a 2 by 2
matrix is the whole matrix. -/
theorem submatrix_spec_witness :
    ((⟨[[1, 2], [3, 4]]⟩ : Matrix Int).submatrix 5 9).entries = [[1, 2], [3, 4]] := by
  have h := submatrix_spec (⟨[[1, 2], [3, 4]]⟩ : Matrix Int) 5 9
  rw [h.2.2 2 (by intro r hr; fin_cases hr <;> rfl) (by omega)]
  rfl

/-! ### C8: transpose -/

theorem transpose_entries [Zero α] (m : Matrix α) :
    m.transpose.entries
      = (List.range m.width).map (fun i => m.entries.map (fun row => row.getD i 0)) := rfl

theorem transpose_length [Zero α] (m : Matrix α) :
    m.transpose.entries.length = m.width := by
  rw [transpose_entries]
  simp

theorem transpose_getElem [Zero α] (m : Matrix α) (i : Nat)
    (hi : i < m.transpose.entries.length) :
    m.transpose.entries[i] = m.entries.map (fun row => row.getD i 0) := by
  simp [transpose_entries]

theorem transpose_width [Zero α] (m : Matrix α) (hw : 0 < m.width) :
    m.transpose.width = m.height := by
  rw [Matrix.width, rowAt,
    List.getD_eq_getElem _ _ (by rw [transpose_length]; exact hw),
    transpose_getElem m 0 (by rw [transpose_length]; exact hw)]
  simp [Matrix.height]

/-- Entry (j, i) of the transpose is entry (i, j) of the matrix, for valid
indices. -/
theorem transpose_entry [Zero α] (m : Matrix α)
    (i j : Nat) (hi : i < m.width) (hj : j < m.height) :
    elt m.transpose.entries i j = elt m.entries j i := by
  have h1 : rowAt m.transpose.entries i = m.entries.map (fun row => row.getD i 0) := by
    rw [rowAt, List.getD_eq_getElem _ _ (by rw [transpose_length]; exact hi)]
    exact transpose_getElem m i (by rw [transpose_length]; exact hi)
  rw [elt, h1]
  rw [List.getD_eq_getElem _ _
    (show j < (m.entries.map (fun row => row.getD i 0)).length by
      simpa [Matrix.height] using hj)]
  rw [List.getElem_map]
  rw [elt, rowAt, List.getD_eq_getElem _ _ hj]

/-- C8: on a valid matrix (rectangular, positive width) the transpose is
involutive, where the transpose has entry (j, i) equal to the original
entry (i, j) for all valid i and j. -/
theorem transpose_transpose_spec [Zero α] (m : Matrix α)
    (hrect : Rect m.entries m.width) (hw : 0 < m.width) :
    m.transpose.transpose = m ∧
    (∀ i j, i < m.height → j < m.width →
      elt m.transpose.entries j i = elt m.entries i j) := by
  constructor
  · obtain ⟨es⟩ := m
    rw [Matrix.mk.injEq]
    set m : Matrix α := ⟨es⟩ with hm
    show m.transpose.transpose.entries = es
    apply List.ext_getElem
    · rw [transpose_length, transpose_width m hw]
      rfl
    · intro j hj1 hj2
      have hjh : j < m.height := hj2
      have e1 : m.transpose.transpose.entries[j]
          = m.transpose.entries.map (fun row => row.getD j 0) :=
        transpose_getElem m.transpose j hj1
      rw [e1]
      apply List.ext_getElem
      · simp only [List.length_map, transpose_length]
        exact (hrect es[j] (List.getElem_mem hj2)).symm
      · intro i hi1 hi2
        have hiw : i < m.width := by simpa [transpose_length] using hi1
        rw [List.getElem_map]
        have hitl : i < m.transpose.entries.length := by
          rw [transpose_length]
          exact hiw
        have e2 : m.transpose.entries[i]
            = m.entries.map (fun row => row.getD i 0) := transpose_getElem m i hitl
        rw [e2]
        rw [List.getD_eq_getElem _ _
          (show j < (m.entries.map (fun row => row.getD i 0)).length by
            simpa [Matrix.height] using hjh)]
        rw [List.getElem_map]
        have hlen : i < es[j].length := by
          rw [hrect es[j] (List.getElem_mem hj2)]
          exact hiw
        exact List.getD_eq_getElem _ _ hlen
  · intro i j hi hj
    exact transpose_entry m j i hj hi

/-- C8 witness: a concrete 2 by 3 matrix. -/
theorem transpose_transpose_spec_witness :
    (⟨[[1, 2, 3], [4, 5, 6]]⟩ : Matrix Int).transpose.transpose
      = ⟨[[1, 2, 3], [4, 5, 6]]⟩ := by
  exact (transpose_transpose_spec (⟨[[1, 2, 3], [4, 5, 6]]⟩ : Matrix Int)
    (by intro r hr; fin_cases hr <;> rfl) (by decide)).1

/-! ### C6: multiplication -/

theorem elt_eq_getD [Zero α] (rows : List (List α)) (i j : Nat) (hi : i < rows.length) :
    elt rows i j = rows[i].getD j 0 := by
  rw [elt, rowAt, List.getD_eq_getElem _ _ hi]

theorem elt_eq_getElem [Zero α] (rows : List (List α)) (i j : Nat)
    (hi : i < rows.length) (hj : j < rows[i].length) :
    elt rows i j = rows[i][j] := by
  rw [elt_eq_getD rows i j hi, List.getD_eq_getElem _ _ hj]

theorem foldl_range_add_sum {M : Type} [AddCommMonoid M] (f : Nat → M) (s : M)
    (a n : Nat) :
    (List.range' a n).foldl (fun acc k => acc + f k) s
      = s + ∑ k ∈ Finset.range n, f (a + k) := by
  induction n generalizing a s with
  | zero => simp
  | succ n ih =>
      have hsum : ∑ k ∈ Finset.range n, f (a + 1 + k)
          = ∑ k ∈ Finset.range n, f (a + (k + 1)) :=
        Finset.sum_congr rfl (fun k _ => by rw [show a + 1 + k = a + (k + 1) by omega])
      rw [List.range'_succ, List.foldl_cons, ih, hsum,
        Finset.sum_range_succ' (fun k => f (a + k)) n]
      simp only [Nat.add_zero]
      rw [add_assoc, add_comm (f a)]

theorem foldl_start_sum {M : Type} [AddCommMonoid M] (f : Nat → M) (w : Nat)
    (hw : 0 < w) :
    (List.range' 1 (w - 1)).foldl (fun acc k => acc + f k) (f 0)
      = ∑ k ∈ Finset.range w, f k := by
  rw [foldl_range_add_sum]
  obtain ⟨n, rfl⟩ : ∃ n, w = n + 1 := ⟨w - 1, by omega⟩
  simp only [Nat.add_sub_cancel]
  rw [Finset.sum_range_succ' f n]
  rw [add_comm]
  congr 1
  exact Finset.sum_congr rfl (fun k _ => by rw [Nat.add_comm 1 k])

/-- C6: for matrices with matching inner dimension the product entry (i, j)
is the sum over k of A(i, k) * B(k, j); on an inner dimension mismatch the
multiplication fails fatally (modelled by none). -/
theorem mul_spec [Ring α] (a b : Matrix α)
    (ha : Rect a.entries a.width) (hb : Rect b.entries b.width) (hwa : 0 < a.width) :
    (a.width = b.height →
      ∃ c, a.mul b = some c ∧ c.height = a.height ∧
        (∀ i j, i < a.height → j < b.width →
          elt c.entries i j
            = ∑ k ∈ Finset.range a.width, elt a.entries i k * elt b.entries k j)) ∧
    (a.width ≠ b.height → a.mul b = none) := by
  constructor
  · intro hdim
    refine ⟨⟨a.rows.map (fun row =>
      b.columns.map (fun col =>
        (List.range' 1 (a.width - 1)).foldl
          (fun prod i => prod + row.getD i 0 * col.getD i 0)
          (row.getD 0 0 * col.getD 0 0)))⟩, ?_, ?_, ?_⟩
    · simp only [Matrix.mul]
      rw [if_neg (by omega)]
    · simp [Matrix.height, Matrix.rows]
    · intro i j hi hj
      have hia : i < a.entries.length := hi
      have hrowlen : (a.rows.map (fun row =>
          b.columns.map (fun col =>
            (List.range' 1 (a.width - 1)).foldl
              (fun prod i => prod + row.getD i 0 * col.getD i 0)
              (row.getD 0 0 * col.getD 0 0)))).length = a.entries.length := by
        simp [Matrix.rows]
      rw [elt_eq_getD _ i j (by rw [hrowlen]; exact hia)]
      rw [List.getElem_map]
      have hjcols : j < b.columns.length := by
        rw [Matrix.columns, transpose_length]
        exact hj
      rw [List.getD_eq_getElem _ _ (by simpa using hjcols)]
      rw [List.getElem_map]
      have hcol : b.columns[j] = b.entries.map (fun row => row.getD j 0) :=
        transpose_getElem b j (by rw [transpose_length]; exact hj)
      rw [hcol]
      have hia2 : i < a.rows.length := hia
      set row := a.rows[i] with hrow
      set col := b.entries.map (fun r => r.getD j 0) with hcolv
      have hstep := foldl_start_sum (fun k => row.getD k 0 * col.getD k 0) a.width hwa
      rw [hstep]
      apply Finset.sum_congr rfl
      intro k hk
      have hkw : k < a.width := Finset.mem_range.1 hk
      show row.getD k 0 * col.getD k 0 = elt a.entries i k * elt b.entries k j
      have h1 : row.getD k 0 = elt a.entries i k := by
        rw [elt_eq_getD a.entries i k hia, hrow]
        rfl
      have h2 : col.getD k 0 = elt b.entries k j := by
        rw [hcolv]
        have hkb : k < b.entries.length := by
          rw [show b.entries.length = b.height from rfl, ← hdim]
          exact hkw
        rw [List.getD_eq_getElem _ _ (by simpa using hkb)]
        rw [List.getElem_map]
        rw [elt_eq_getD b.entries k j hkb]
      rw [h1, h2]
  · intro hdim
    simp only [Matrix.mul]
    rw [if_pos hdim]

/-- C6 witness: the concrete product from the test suite. -/
theorem mul_spec_witness :
    ∃ c, (⟨[[1, 2, 4], [3, 4, 9]]⟩ : Matrix Int).mul ⟨[[1, 2], [2, 3], [5, 1]]⟩ = some c ∧
      c.height = (⟨[[1, 2, 4], [3, 4, 9]]⟩ : Matrix Int).height ∧
      (∀ i j, i < (⟨[[1, 2, 4], [3, 4, 9]]⟩ : Matrix Int).height →
        j < (⟨[[1, 2], [2, 3], [5, 1]]⟩ : Matrix Int).width →
        elt c.entries i j
          = ∑ k ∈ Finset.range (⟨[[1, 2, 4], [3, 4, 9]]⟩ : Matrix Int).width,
              elt [[1, 2, 4], [3, 4, 9]] i k * elt [[1, 2], [2, 3], [5, 1]] k j) := by
  exact (mul_spec (⟨[[1, 2, 4], [3, 4, 9]]⟩ : Matrix Int) ⟨[[1, 2], [2, 3], [5, 1]]⟩
    (by intro r hr; fin_cases hr <;> rfl)
    (by intro r hr; fin_cases hr <;> rfl) (by decide)).1 rfl

/-! ### C2: cofactor determinant -/

theorem foldl_signed_sum {M : Type} [AddCommGroup M] (f : Nat → M) (n : Nat) :
    (List.range n).attach.foldl (fun out i =>
      if i.1 % 2 = 0 then out + f i.1 else out - f i.1) 0
      = ∑ i ∈ Finset.range n, (if i % 2 = 0 then f i else - f i) := by
  rw [show (fun (out : M) (i : {x // x ∈ List.range n}) =>
      if i.1 % 2 = 0 then out + f i.1 else out - f i.1)
    = (fun out i => (fun (acc : M) (k : Nat) =>
        acc + (if k % 2 = 0 then f k else - f k)) out i.1) from ?_]
  · rw [List.foldl_attach (List.range n)
      (fun acc k => acc + (if k % 2 = 0 then f k else - f k)) 0]
    rw [List.range_eq_range']
    rw [foldl_range_add_sum]
    rw [zero_add]
    exact Finset.sum_congr rfl (fun k _ => by rw [Nat.zero_add])
  · funext out i
    by_cases hk : i.1 % 2 = 0
    · simp [hk]
    · simp [hk, sub_eq_add_neg]

/-- C2: the determinant of a square matrix is Ok of the recursive cofactor
expansion along the first row: the sole entry for a 1 by 1 matrix, and
otherwise the sum, starting from the additive identity, over column index i
of entry(0,i) times det(submatrix(0,i)), added at even i and subtracted at
odd i; a non-square matrix gives the NotSquare error. -/
theorem det_spec [Ring α] (m : Matrix α) :
    (m.is_square = true → m.width = 1 → m.det = .ok (m.entry 0 0)) ∧
    (m.is_square = true → ¬ m.width = 1 →
      m.det = .ok (∑ i ∈ Finset.range m.width,
        (if i % 2 = 0 then m.entry 0 i * unwrap ((m.submatrix 0 i).det)
         else -(m.entry 0 i * unwrap ((m.submatrix 0 i).det))))) ∧
    (¬ m.is_square = true → m.det = .error .NotSquare) := by
  refine ⟨?_, ?_, ?_⟩
  · intro hsq hw
    rw [Matrix.det, if_pos hsq, if_pos hw]
  · intro hsq hw
    rw [Matrix.det, if_pos hsq, if_neg hw]
    exact congrArg Except.ok
      (foldl_signed_sum (fun i => m.entry 0 i * unwrap ((m.submatrix 0 i).det)) m.width)
  · intro hsq
    rw [Matrix.det, if_neg hsq]

/-- C2 witness: the cofactor expansion equation at a concrete 2 by 2
matrix. -/
theorem det_spec_witness :
    (⟨[[1, 2], [3, 4]]⟩ : Matrix Int).det
      = .ok (∑ i ∈ Finset.range (⟨[[1, 2], [3, 4]]⟩ : Matrix Int).width,
          (if i % 2 = 0 then (⟨[[1, 2], [3, 4]]⟩ : Matrix Int).entry 0 i *
              unwrap (((⟨[[1, 2], [3, 4]]⟩ : Matrix Int).submatrix 0 i).det)
           else -((⟨[[1, 2], [3, 4]]⟩ : Matrix Int).entry 0 i *
              unwrap (((⟨[[1, 2], [3, 4]]⟩ : Matrix Int).submatrix 0 i).det)))) :=
  (det_spec (⟨[[1, 2], [3, 4]]⟩ : Matrix Int)).2.1 rfl (by decide)

/-! ### C10: rectangularity toolkit -/

theorem rowAt_mem (rows : List (List α)) (i : Nat) (hi : i < rows.length) :
    rowAt rows i ∈ rows := by
  rw [rowAt, List.getD_eq_getElem _ _ hi]
  exact List.getElem_mem _

theorem rowAt_length (rows : List (List α)) (w i : Nat) (hr : Rect rows w)
    (hi : i < rows.length) : (rowAt rows i).length = w :=
  hr _ (rowAt_mem rows i hi)

theorem length_rowOp [Ring α] (rowj rowi : List α) (c : α) (s w : Nat) :
    (rowOp rowj rowi c s w).length = rowj.length := by
  unfold rowOp
  apply foldl_invariant (fun (r : List α) => r.length = rowj.length)
  · rfl
  · intro x k hx _
    rw [List.length_set]
    exact hx

theorem rect_set (rows : List (List α)) (j : Nat) (nr : List α) (w : Nat)
    (hr : Rect rows w) (hnr : nr.length = w) : Rect (rows.set j nr) w := by
  rw [rect_iff] at hr ⊢
  intro i hi
  rw [List.length_set] at hi
  rw [List.getElem_set]
  split
  · exact hnr
  · exact hr i hi

theorem swapRows_length (rows : List (List α)) (i j : Nat) :
    (swapRows rows i j).length = rows.length := by
  unfold swapRows
  rw [List.length_set, List.length_set]

theorem rect_swapRows (rows : List (List α)) (i j w : Nat) (hr : Rect rows w)
    (hi : i < rows.length) (hj : j < rows.length) :
    Rect (swapRows rows i j) w := by
  unfold swapRows
  apply rect_set _ _ _ _ (rect_set _ _ _ _ hr (rowAt_length rows w j hr hj))
  exact rowAt_length rows w i hr hi

theorem findPivotRow_lt [Zero α] [DecidableEq α] (rows : List (List α)) (i c h j : Nat)
    (hfp : findPivotRow rows i c h = some j) : i + 1 ≤ j ∧ j < h := by
  unfold findPivotRow at hfp
  have := List.mem_of_find?_eq_some hfp
  rw [List.mem_range'] at this
  obtain ⟨k, hk, rfl⟩ := this
  omega

theorem elimBelowCol_len_rect [Field α] [DecidableEq α] (rows : List (List α))
    (i c h w : Nat) (hr : Rect rows w) (hlen : rows.length = h) :
    Rect (elimBelowCol rows i c h w) w ∧ (elimBelowCol rows i c h w).length = h := by
  unfold elimBelowCol
  apply foldl_invariant (fun (rs : List (List α)) => Rect rs w ∧ rs.length = h)
  · exact ⟨hr, hlen⟩
  · rintro rs j ⟨hrs, hlen2⟩ hmem
    have hj : j < h := by
      rw [List.mem_range'] at hmem
      obtain ⟨k, hk, rfl⟩ := hmem
      omega
    refine ⟨?_, by rw [List.length_set]; exact hlen2⟩
    apply rect_set _ _ _ _ hrs
    rw [length_rowOp]
    exact rowAt_length rs w j hrs (by rw [hlen2]; exact hj)

theorem rowEchelonGo_len_rect [Field α] [DecidableEq α] (h w : Nat) :
    ∀ fuel i off (rows : List (List α)), Rect rows w → rows.length = h →
      Rect (rowEchelonGo h w fuel i off rows) w ∧
        (rowEchelonGo h w fuel i off rows).length = h := by
  intro fuel
  induction fuel with
  | zero =>
      intro i off rows hr hl
      exact ⟨hr, hl⟩
  | succ fuel ih =>
      intro i off rows hr hl
      rw [rowEchelonGo]
      split
      · rename_i hi
        split
        · exact ⟨hr, hl⟩
        · rename_i hoff
          split
          · rcases hfp : findPivotRow rows i (i + off) h with _ | j
            · simp only [hfp]
              obtain ⟨h1, h2⟩ := elimBelowCol_len_rect rows i (i + off + 1) h w hr hl
              exact ih (i + 1) (off + 1) _ h1 h2
            · simp only [hfp]
              have hjb := findPivotRow_lt rows i (i + off) h j hfp
              have hsw : Rect (swapRows rows i j) w :=
                rect_swapRows rows i j w hr (by rw [hl]; omega) (by rw [hl]; omega)
              have hswl : (swapRows rows i j).length = h := by
                rw [swapRows_length]
                exact hl
              obtain ⟨h1, h2⟩ := elimBelowCol_len_rect _ i (i + off) h w hsw hswl
              exact ih (i + 1) off _ h1 h2
          · obtain ⟨h1, h2⟩ := elimBelowCol_len_rect rows i (i + off) h w hr hl
            exact ih (i + 1) off _ h1 h2
      · exact ⟨hr, hl⟩

theorem length_divideFrom [Field α] (row : List α) (k : Nat) :
    (divideFrom row k).length = row.length := by
  unfold divideFrom
  rw [List.length_append, List.length_take, List.length_map, List.length_drop]
  omega

theorem rreGo_rect [Field α] [DecidableEq α] (w : Nat) (rows : List (List α)) :
    ∀ (off : Nat), Rect rows w → Rect (rreGo rows off) w := by
  induction rows with
  | nil =>
      intro off _ r hmem
      simp [rreGo] at hmem
  | cons row rest ih =>
      intro off hr r hmem
      rw [rreGo] at hmem
      rcases List.mem_cons.1 hmem with rfl | hmem2
      · rw [length_divideFrom]
        exact hr row (by simp)
      · exact ih _ (fun r2 hr2 => hr r2 (by simp [hr2])) r hmem2

theorem snd_mem_of_mem_enum {l : List α} {p : Nat × α} (hp : p ∈ l.enum) : p.2 ∈ l := by
  rcases List.mem_iff_getElem.1 hp with ⟨i, hi, rfl⟩
  have hi2 : i < l.length := by
    rw [← List.enum_length]
    exact hi
  rw [List.getElem_enum]
  exact List.getElem_mem _

theorem isRect_of_rect (rows : List (List α)) (w : Nat) (hr : Rect rows w) :
    IsRect (⟨rows⟩ : Matrix α) := by
  cases rows with
  | nil =>
      intro r hmem
      cases hmem
  | cons a t =>
      have ha : a.length = w := hr a (by simp)
      intro r hmem
      show r.length = (rowAt (a :: t) 0).length
      rw [show rowAt (a :: t) 0 = a from rfl, ha]
      exact hr r hmem

theorem isRect_mk (m : Matrix α) (w : Nat) (hr : Rect m.entries w) : IsRect m := by
  have := isRect_of_rect m.entries w hr
  cases m
  exact this

theorem mem_of_mem_eraseIdx {l : List α} {r : α} {i : Nat} (h : r ∈ l.eraseIdx i) :
    r ∈ l := by
  rcases List.mem_iff_getElem.1 h with ⟨k, hk, rfl⟩
  rw [List.getElem_eraseIdx]
  split
  · exact List.getElem_mem _
  · exact List.getElem_mem _

theorem zero_rect [Zero α] (hh ww : Nat) :
    Rect (Matrix.zero hh ww : Matrix α).entries ww := by
  intro r hmem
  rcases List.mem_map.1 hmem with ⟨i, _, rfl⟩
  simp

theorem zero_length [Zero α] (hh ww : Nat) :
    (Matrix.zero hh ww : Matrix α).entries.length = hh := by
  simp [Matrix.zero]

theorem identity_rect [Zero α] [One α] (n : Nat) :
    Rect (Matrix.identity n : Matrix α).entries n := by
  intro r hmem
  rcases List.mem_map.1 hmem with ⟨p, hp, rfl⟩
  rw [List.length_set]
  exact zero_rect n n p.2 (snd_mem_of_mem_enum hp)

theorem identity_length [Zero α] [One α] (n : Nat) :
    (Matrix.identity n : Matrix α).entries.length = n := by
  simp [Matrix.identity, Matrix.zero, List.enum_length]

theorem rect_from_aux (es : List (List α)) (m : Matrix α)
    (heq : Matrix.from' es = .ok m) : IsRect m := by
  have heq2 : (if (es.all fun row => row.length == (rowAt es 0).length) = true
      then (Except.ok ⟨es⟩ : Except MatrixError (Matrix α))
      else Except.error MatrixError.UnequalRows) = Except.ok m := heq
  clear heq
  rename' heq2 => heq
  split at heq
  · rename_i hall
    injection heq with h2
    subst h2
    rw [List.all_eq_true] at hall
    intro r hmem
    have := hall r hmem
    rw [beq_iff_eq] at this
    exact this
  · cases heq

theorem transpose_isRect [Zero α] (m : Matrix α) : IsRect m.transpose := by
  apply isRect_mk _ m.height
  intro r hmem
  rw [transpose_entries] at hmem
  rcases List.mem_map.1 hmem with ⟨i, _, rfl⟩
  simp [Matrix.height]

theorem rect_submatrix_aux (m : Matrix α) (r c : Nat) (hm : IsRect m) :
    IsRect (m.submatrix r c) := by
  apply isRect_mk _ (if c < m.width then m.width - 1 else m.width)
  rw [submatrix_entries]
  intro row hmem
  rcases List.mem_map.1 hmem with ⟨row0, hrow0, rfl⟩
  have hlen : row0.length = m.width := hm row0 (mem_of_mem_eraseIdx hrow0)
  rw [List.length_eraseIdx, hlen]

theorem rect_add_aux [Ring α] (a b c : Matrix α) (hA : IsRect a)
    (heq : a.add b = some c) : IsRect c := by
  unfold Matrix.add at heq
  split at heq
  · injection heq with h2
    subst h2
    apply isRect_mk _ a.width
    intro r hmem
    rcases List.mem_map.1 hmem with ⟨p, hp, rfl⟩
    rw [List.length_map, List.enum_length]
    exact hA p.2 (snd_mem_of_mem_enum hp)
  · cases heq

theorem rect_neg_aux [Ring α] (a : Matrix α) (hA : IsRect a) : IsRect a.neg := by
  apply isRect_mk _ a.width
  intro r hmem
  rcases List.mem_map.1 hmem with ⟨row, hrow, rfl⟩
  rw [List.length_map]
  exact hA row hrow

theorem rect_sub_aux [Ring α] (a b c : Matrix α) (hA : IsRect a)
    (heq : a.sub b = some c) : IsRect c := by
  unfold Matrix.sub at heq
  split at heq
  · exact rect_add_aux a (b.neg) c hA heq
  · cases heq

theorem rect_mul_aux [Ring α] (a b c : Matrix α) (heq : a.mul b = some c) :
    IsRect c := by
  have heq2 : (if a.width ≠ b.height then none
      else some (⟨a.rows.map (fun row => b.columns.map (fun col =>
        (List.range' 1 (a.width - 1)).foldl
          (fun prod i => prod + row.getD i 0 * col.getD i 0)
          (row.getD 0 0 * col.getD 0 0)))⟩ : Matrix α)) = some c := heq
  clear heq
  rename' heq2 => heq
  split at heq
  · cases heq
  · injection heq with h2
    subst h2
    apply isRect_mk _ b.columns.length
    intro r hmem
    rcases List.mem_map.1 hmem with ⟨row, hrow, rfl⟩
    rw [List.length_map]

theorem rect_mul_scalar_aux [Ring α] (a : Matrix α) (s : α) (hA : IsRect a) :
    IsRect (a.mul_scalar s) := by
  apply isRect_mk _ a.width
  intro r hmem
  rcases List.mem_map.1 hmem with ⟨row, hrow, rfl⟩
  rw [List.length_map]
  exact hA row hrow

theorem rect_row_echelon_aux [Field α] [DecidableEq α] (m : Matrix α)
    (hm : IsRect m) : IsRect m.row_echelon := by
  obtain ⟨g1, _⟩ := rowEchelonGo_len_rect m.height m.width (m.height - 1) 0 0
    m.entries hm rfl
  exact isRect_mk _ m.width g1

theorem rect_column_echelon_aux [Field α] [DecidableEq α] (m : Matrix α) :
    IsRect m.column_echelon :=
  transpose_isRect m.transpose.row_echelon

theorem rect_rre_aux [Field α] [DecidableEq α] (m : Matrix α) (hm : IsRect m) :
    IsRect m.reduced_row_echelon := by
  obtain ⟨g1, _⟩ := rowEchelonGo_len_rect m.height m.width (m.height - 1) 0 0
    m.entries hm rfl
  exact isRect_mk _ m.width (rreGo_rect m.width _ 0 g1)

theorem rect_zero_aux [Field α] (hh ww : Nat) :
    IsRect (Matrix.zero hh ww : Matrix α) :=
  isRect_mk _ ww (zero_rect hh ww)

theorem rect_identity_aux [Field α] (n : Nat) :
    IsRect (Matrix.identity n : Matrix α) :=
  isRect_mk _ n (identity_rect n)

theorem rect_diag_aux [Field α] (d : List α) :
    IsRect (Matrix.diagonal_matrix d : Matrix α) := by
  apply isRect_mk _ d.length
  intro r hmem
  rcases List.mem_map.1 hmem with ⟨p, hp, rfl⟩
  rw [List.length_set]
  exact zero_rect d.length d.length p.2 (snd_mem_of_mem_enum hp)

theorem rect_matrix_from_aux {β : Type} (f : α → β) (m : Matrix α) (hm : IsRect m) :
    IsRect (matrix_from f m) := by
  apply isRect_mk _ m.width
  intro r hmem
  rcases List.mem_map.1 hmem with ⟨row, hrow, rfl⟩
  rw [List.length_map]
  exact hm row hrow

theorem invElimBelow_len_rect [Field α] [DecidableEq α] (rows out : List (List α))
    (i h w wo : Nat) (hr : Rect rows w) (hlen : rows.length = h)
    (hro : Rect out wo) (hleno : out.length = h) :
    Rect (invElimBelow rows out i h w).1 w ∧ (invElimBelow rows out i h w).1.length = h ∧
    Rect (invElimBelow rows out i h w).2 wo ∧ (invElimBelow rows out i h w).2.length = h := by
  unfold invElimBelow
  apply foldl_invariant (fun (p : List (List α) × List (List α)) =>
    Rect p.1 w ∧ p.1.length = h ∧ Rect p.2 wo ∧ p.2.length = h)
  · exact ⟨hr, hlen, hro, hleno⟩
  · rintro p j ⟨h1, h2, h3, h4⟩ hmem
    have hj : j < h := by
      rw [List.mem_range'] at hmem
      obtain ⟨k, hk, rfl⟩ := hmem
      omega
    refine ⟨?_, by rw [List.length_set]; exact h2, ?_, by rw [List.length_set]; exact h4⟩
    · apply rect_set _ _ _ _ h1
      rw [length_rowOp]
      exact rowAt_length p.1 w j h1 (by rw [h2]; exact hj)
    · apply rect_set _ _ _ _ h3
      rw [length_rowOp]
      exact rowAt_length p.2 wo j h3 (by rw [h4]; exact hj)

theorem invFwdGo_len_rect [Field α] [DecidableEq α] (h w wo : Nat) :
    ∀ fuel i (rows out rows2 out2 : List (List α)),
      Rect rows w → rows.length = h → Rect out wo → out.length = h →
      invFwdGo h w fuel i rows out = .ok (rows2, out2) →
      Rect rows2 w ∧ rows2.length = h ∧ Rect out2 wo ∧ out2.length = h := by
  intro fuel
  induction fuel with
  | zero =>
      intro i rows out rows2 out2 h1 h2 h3 h4 heq
      obtain ⟨rfl, rfl⟩ : rows = rows2 ∧ out = out2 := by
        simpa [invFwdGo, Prod.ext_iff] using heq
      exact ⟨h1, h2, h3, h4⟩
  | succ fuel ih =>
      intro i rows out rows2 out2 h1 h2 h3 h4 heq
      rw [invFwdGo] at heq
      split at heq
      · rename_i hi
        split at heq
        · rcases hfp : findPivotRow rows i i h with _ | j
          · rw [hfp] at heq
            simp at heq
          · rw [hfp] at heq
            simp only [] at heq
            have hjb := findPivotRow_lt rows i i h j hfp
            have hsw1 : Rect (swapRows rows i j) w :=
              rect_swapRows rows i j w h1 (by rw [h2]; omega) (by rw [h2]; omega)
            have hsw1l : (swapRows rows i j).length = h := by
              rw [swapRows_length]; exact h2
            have hsw2 : Rect (swapRows out i j) wo :=
              rect_swapRows out i j wo h3 (by rw [h4]; omega) (by rw [h4]; omega)
            have hsw2l : (swapRows out i j).length = h := by
              rw [swapRows_length]; exact h4
            obtain ⟨g1, g2, g3, g4⟩ := invElimBelow_len_rect (swapRows rows i j)
              (swapRows out i j) i h w wo hsw1 hsw1l hsw2 hsw2l
            exact ih (i + 1) _ _ _ _ g1 g2 g3 g4 heq
        · obtain ⟨g1, g2, g3, g4⟩ := invElimBelow_len_rect rows out i h w wo h1 h2 h3 h4
          exact ih (i + 1) _ _ _ _ g1 g2 g3 g4 heq
      · obtain ⟨rfl, rfl⟩ : rows = rows2 ∧ out = out2 := by
          simpa [Prod.ext_iff] using heq
        exact ⟨h1, h2, h3, h4⟩

theorem invNormGo_len_rect [Field α] [DecidableEq α] (h w wo : Nat) :
    ∀ (is : List Nat) (rows out rows2 out2 : List (List α)),
      (∀ i ∈ is, i < h) →
      Rect rows w → rows.length = h → Rect out wo → out.length = h →
      invNormGo is rows out = .ok (rows2, out2) →
      Rect rows2 w ∧ rows2.length = h ∧ Rect out2 wo ∧ out2.length = h := by
  intro is
  induction is with
  | nil =>
      intro rows out rows2 out2 _ h1 h2 h3 h4 heq
      rw [invNormGo] at heq
      obtain ⟨rfl, rfl⟩ : rows = rows2 ∧ out = out2 := by
        simpa [Prod.ext_iff] using heq
      exact ⟨h1, h2, h3, h4⟩
  | cons i is ih =>
      intro rows out rows2 out2 his h1 h2 h3 h4 heq
      rw [invNormGo] at heq
      split at heq
      · simp at heq
      · have hih : i < h := his i (by simp)
        apply ih _ _ _ _ (fun j hj => his j (by simp [hj])) ?_ ?_ ?_ ?_ heq
        · apply rect_set _ _ _ _ h1
          rw [length_divideFrom]
          exact rowAt_length rows w i h1 (by rw [h2]; exact hih)
        · rw [List.length_set]; exact h2
        · apply rect_set _ _ _ _ h3
          rw [List.length_map]
          exact rowAt_length out wo i h3 (by rw [h4]; exact hih)
        · rw [List.length_set]; exact h4

theorem invBackInner_len_rect [Field α] [DecidableEq α] (coef : List (List α))
    (w i wo h : Nat) :
    ∀ (js : List Nat) (out : List (List α)), Rect out wo → out.length = h →
      (∀ j ∈ js, j < h) →
      Rect (invBackInner coef w i js out) wo ∧
        (invBackInner coef w i js out).length = h := by
  intro js
  induction js with
  | nil =>
      intro out h1 h2 _
      exact ⟨h1, h2⟩
  | cons j js ih =>
      intro out h1 h2 hjs
      rw [invBackInner]
      apply ih
      · apply rect_set _ _ _ _ h1
        rw [length_rowOp]
        exact rowAt_length out wo j h1 (by rw [h2]; exact hjs j (by simp))
      · rw [List.length_set]; exact h2
      · intro j2 hj2
        exact hjs j2 (by simp [hj2])

theorem invBackGo_len_rect [Field α] [DecidableEq α] (coef : List (List α))
    (w wo h : Nat) :
    ∀ (i : Nat) (out : List (List α)), i ≤ h - 1 → Rect out wo → out.length = h →
      Rect (invBackGo coef w i out) wo ∧ (invBackGo coef w i out).length = h := by
  intro i
  induction i with
  | zero =>
      intro out _ h1 h2
      exact ⟨h1, h2⟩
  | succ i ih =>
      intro out hi h1 h2
      rw [invBackGo]
      apply ih _ (by omega)
      · exact (invBackInner_len_rect coef w (i + 1) wo h _ out h1 h2
          (fun j hj => by
            have : j ∈ List.range (i + 1) := by simpa using hj
            rw [List.mem_range] at this
            omega)).1
      · exact (invBackInner_len_rect coef w (i + 1) wo h _ out h1 h2
          (fun j hj => by
            have : j ∈ List.range (i + 1) := by simpa using hj
            rw [List.mem_range] at this
            omega)).2

theorem rect_inverse_aux [Field α] [DecidableEq α] (m b : Matrix α) (hm : IsRect m)
    (heq : m.inverse = .ok b) : IsRect b := by
  rw [Matrix.inverse] at heq
  split at heq
  · rcases hfwd : invFwdGo m.height m.width (m.height - 1) 0 m.entries
        (Matrix.identity m.height : Matrix α).entries with e | ⟨rows, out⟩
    · simp only [hfwd] at heq
      cases heq
    · simp only [hfwd] at heq
      rcases hnorm : invNormGo (List.range m.height) rows out with e | ⟨rows2, out2⟩
      · simp only [hnorm] at heq
        cases heq
      · simp only [hnorm] at heq
        injection heq with h2
        subst h2
        obtain ⟨f1, f2, f3, f4⟩ := invFwdGo_len_rect m.height m.width m.height
          (m.height - 1) 0 m.entries (Matrix.identity m.height : Matrix α).entries rows out
          hm rfl (identity_rect m.height) (identity_length m.height) hfwd
        obtain ⟨g1, g2, g3, g4⟩ := invNormGo_len_rect m.height m.width m.height
          (List.range m.height) rows out rows2 out2
          (fun i hi => by simpa using hi) f1 f2 f3 f4 hnorm
        obtain ⟨k1, k2⟩ := invBackGo_len_rect rows2 m.width m.height m.height
          (m.height - 1) out2 (by omega) g3 g4
        exact isRect_mk _ m.height k1
  · cases heq

/-- C10: every public matrix producing operation preserves the
rectangularity invariant, all rows of the result having identical length:
from on success, transpose, submatrix, add, sub, neg, mul, mul_scalar,
row_echelon, column_echelon, reduced_row_echelon, zero, identity,
diagonal_matrix, inverse on success, and matrix_from. -/
theorem rect_preservation {α : Type} [Field α] [DecidableEq α] :
    (∀ (es : List (List α)) (m : Matrix α), Matrix.from' es = .ok m → IsRect m) ∧
    (∀ m : Matrix α, IsRect m.transpose) ∧
    (∀ (m : Matrix α) (r c : Nat), IsRect m → IsRect (m.submatrix r c)) ∧
    (∀ a b c : Matrix α, IsRect a → a.add b = some c → IsRect c) ∧
    (∀ a b c : Matrix α, IsRect a → a.sub b = some c → IsRect c) ∧
    (∀ a : Matrix α, IsRect a → IsRect a.neg) ∧
    (∀ a b c : Matrix α, a.mul b = some c → IsRect c) ∧
    (∀ (a : Matrix α) (s : α), IsRect a → IsRect (a.mul_scalar s)) ∧
    (∀ m : Matrix α, IsRect m → IsRect m.row_echelon) ∧
    (∀ m : Matrix α, IsRect m.column_echelon) ∧
    (∀ m : Matrix α, IsRect m → IsRect m.reduced_row_echelon) ∧
    (∀ hh ww : Nat, IsRect (Matrix.zero hh ww : Matrix α)) ∧
    (∀ n : Nat, IsRect (Matrix.identity n : Matrix α)) ∧
    (∀ d : List α, IsRect (Matrix.diagonal_matrix d : Matrix α)) ∧
    (∀ m b : Matrix α, IsRect m → m.inverse = .ok b → IsRect b) ∧
    (∀ (β : Type) (f : α → β) (m : Matrix α), IsRect m → IsRect (matrix_from f m)) :=
  ⟨rect_from_aux, transpose_isRect, rect_submatrix_aux, rect_add_aux, rect_sub_aux,
    rect_neg_aux, rect_mul_aux, rect_mul_scalar_aux, rect_row_echelon_aux,
    rect_column_echelon_aux, rect_rre_aux, rect_zero_aux, rect_identity_aux,
    rect_diag_aux, rect_inverse_aux, fun _ f m hm => rect_matrix_from_aux f m hm⟩

/-- C10 witness: concrete instances of the transpose and the
reduced_row_echelon conjuncts over the rationals. -/
theorem rect_preservation_witness :
    IsRect ((⟨[[1, 2], [3, 4]]⟩ : Matrix ℚ).transpose) ∧
    IsRect ((⟨[[1, 2], [3, 4]]⟩ : Matrix ℚ).reduced_row_echelon) := by
  constructor
  · exact rect_preservation.2.1 (⟨[[1, 2], [3, 4]]⟩ : Matrix ℚ)
  · exact rect_preservation.2.2.2.2.2.2.2.2.2.2.1 (⟨[[1, 2], [3, 4]]⟩ : Matrix ℚ)
      (by intro r hr; fin_cases hr <;> rfl)

/-! ### C4: row_echelon safety toolkit -/

theorem rowAt_eq_getElem (rows : List (List α)) (i : Nat) (hi : i < rows.length) :
    rowAt rows i = rows[i] := List.getD_eq_getElem _ _ hi

theorem rowAt_set_ne (rows : List (List α)) (j i : Nat) (nr : List α) (hne : j ≠ i) :
    rowAt (rows.set j nr) i = rowAt rows i := by
  rw [rowAt, rowAt, List.getD_eq_getElem?_getD, List.getD_eq_getElem?_getD,
    List.getElem?_set_ne hne]

theorem rowAt_set_self (rows : List (List α)) (i : Nat) (nr : List α)
    (hi : i < rows.length) : rowAt (rows.set i nr) i = nr := by
  rw [rowAt, List.getD_eq_getElem?_getD, List.getElem?_set_self hi]
  rfl

theorem elt_set_ne [Zero α] (rows : List (List α)) (j i c : Nat) (nr : List α)
    (hne : j ≠ i) : elt (rows.set j nr) i c = elt rows i c := by
  rw [elt, elt, rowAt_set_ne rows j i nr hne]

theorem rowAt_swap_i (rows : List (List α)) (i j : Nat) (hi : i < rows.length)
    (hj : j < rows.length) : rowAt (swapRows rows i j) i = rowAt rows j := by
  unfold swapRows
  by_cases hij : j = i
  · subst hij
    rw [rowAt_set_self _ _ _ (by rw [List.length_set]; exact hi)]
  · rw [rowAt_set_ne _ _ _ _ hij, rowAt_set_self _ _ _ hi]

theorem rowAt_swap_j (rows : List (List α)) (i j : Nat) (hj : j < rows.length) :
    rowAt (swapRows rows i j) j = rowAt rows i := by
  unfold swapRows
  rw [rowAt_set_self _ _ _ (by rw [List.length_set]; exact hj)]

theorem rowAt_swap_other (rows : List (List α)) (i j r : Nat) (hri : r ≠ i)
    (hrj : r ≠ j) : rowAt (swapRows rows i j) r = rowAt rows r := by
  unfold swapRows
  rw [rowAt_set_ne _ _ _ _ (fun hc => hrj hc.symm),
    rowAt_set_ne _ _ _ _ (fun hc => hri hc.symm)]

theorem findPivotRow_spec [Zero α] [DecidableEq α] (rows : List (List α))
    (i c h j : Nat) (hfp : findPivotRow rows i c h = some j) : elt rows j c ≠ 0 := by
  unfold findPivotRow at hfp
  have := List.find?_some hfp
  simpa using this

theorem eltC_eq [Zero α] (rows : List (List α)) (w i j : Nat) (hr : Rect rows w)
    (hi : i < rows.length) (hj : j < w) : eltC rows i j = some (elt rows i j) := by
  have hji : j < rows[i].length := by
    rw [hr _ (List.getElem_mem hi)]
    exact hj
  unfold eltC
  rw [List.getElem?_eq_getElem hi]
  show rows[i][j]? = some (elt rows i j)
  rw [List.getElem?_eq_getElem hji, elt_eq_getElem rows i j hi hji]

theorem swapRowsC_eq (rows : List (List α)) (i j : Nat) (hi : i < rows.length)
    (hj : j < rows.length) : swapRowsC rows i j = some (swapRows rows i j) := by
  unfold swapRowsC
  rw [List.getElem?_eq_getElem hi, List.getElem?_eq_getElem hj]

theorem rowOpC_foldlM [Ring α] (rowi : List α) (c : α) (w : Nat) (hi : rowi.length = w) :
    ∀ (ks : List Nat) (rowj : List α), rowj.length = w → (∀ k ∈ ks, k < w) →
      ks.foldlM (fun rj k =>
        match rj[k]?, rowi[k]? with
        | some x, some y => some (rj.set k (x - y * c))
        | _, _ => none) rowj
      = some (ks.foldl (fun rj k => rj.set k (rj.getD k 0 - rowi.getD k 0 * c)) rowj) := by
  intro ks
  induction ks with
  | nil =>
      intro rowj _ _
      rfl
  | cons k ks ih =>
      intro rowj hj hks
      have hk : k < w := hks k (by simp)
      have hkj : k < rowj.length := by rw [hj]; exact hk
      have hki : k < rowi.length := by rw [hi]; exact hk
      rw [List.foldlM_cons, List.foldl_cons]
      simp only [List.getElem?_eq_getElem hkj, List.getElem?_eq_getElem hki]
      rw [show rowj[k] - rowi[k] * c = rowj.getD k 0 - rowi.getD k 0 * c by
        rw [List.getD_eq_getElem _ _ hkj, List.getD_eq_getElem _ _ hki]]
      show (ks.foldlM _ (rowj.set k (rowj.getD k 0 - rowi.getD k 0 * c))) = _
      exact ih (rowj.set k (rowj.getD k 0 - rowi.getD k 0 * c))
        (by rw [List.length_set]; exact hj) (fun k2 hk2 => hks k2 (by simp [hk2]))

theorem rowOpC_eq [Ring α] (rowj rowi : List α) (c : α) (start w : Nat)
    (hj : rowj.length = w) (hi : rowi.length = w) :
    rowOpC rowj rowi c start w = some (rowOp rowj rowi c start w) := by
  unfold rowOpC rowOp
  apply rowOpC_foldlM rowi c w hi _ rowj hj
  intro k hk
  rw [List.mem_range'] at hk
  obtain ⟨i2, hi2, rfl⟩ := hk
  omega

theorem findPivotRowC_eq [Zero α] [DecidableEq α] (rows : List (List α)) (w c h : Nat)
    (hr : Rect rows w) (hl : rows.length = h) (hc : c < w) :
    ∀ (js : List Nat), (∀ j ∈ js, j < h) →
      findPivotRowC rows c js = some (js.find? (fun j => elt rows j c ≠ 0)) := by
  intro js
  induction js with
  | nil =>
      intro _
      rfl
  | cons j js ih =>
      intro hjs
      have hjh : j < h := hjs j (by simp)
      rw [findPivotRowC]
      rw [eltC_eq rows w j c hr (by rw [hl]; exact hjh) hc]
      rw [List.find?_cons]
      by_cases hz : elt rows j c = 0
      · have hd : (decide (elt rows j c ≠ 0)) = false := by simp [hz]
        rw [hd]
        show (if elt rows j c ≠ 0 then some (some j) else findPivotRowC rows c js) = _
        rw [if_neg (by simp [hz])]
        exact ih (fun j2 hj2 => hjs j2 (by simp [hj2]))
      · have hd : (decide (elt rows j c ≠ 0)) = true := by simp [hz]
        rw [hd]
        show (if elt rows j c ≠ 0 then some (some j) else findPivotRowC rows c js) = _
        rw [if_pos hz]

theorem elimBelowColC_foldlM [Field α] [DecidableEq α] (i c h w : Nat)
    (hi : i < h) (hc : c < w) :
    ∀ (js : List Nat) (rs : List (List α)), Rect rs w → rs.length = h →
      (∀ j ∈ js, j < h ∧ j ≠ i) → elt rs i c ≠ 0 →
      js.foldlM (fun rs j =>
        match eltC rs j c, eltC rs i c, rs[i]?, rs[j]? with
        | some num, some den, some rowi, some rowj =>
            if den = 0 then none
            else
              match rowOpC rowj rowi (num / den) c w with
              | some newj => some (rs.set j newj)
              | none => none
        | _, _, _, _ => none) rs
      = some (js.foldl (fun rs j =>
          rs.set j (rowOp (rowAt rs j) (rowAt rs i) (elt rs j c / elt rs i c) c w)) rs) := by
  intro js
  induction js with
  | nil =>
      intro rs _ _ _ _
      rfl
  | cons j js ih =>
      intro rs hrect hlen hjs hpiv
      obtain ⟨hjh, hjne⟩ := hjs j (by simp)
      have hih : i < rs.length := by rw [hlen]; exact hi
      have hjl : j < rs.length := by rw [hlen]; exact hjh
      have hstep : (match eltC rs j c, eltC rs i c, rs[i]?, rs[j]? with
          | some num, some den, some rowi, some rowj =>
              if den = 0 then none
              else
                match rowOpC rowj rowi (num / den) c w with
                | some newj => some (rs.set j newj)
                | none => none
          | _, _, _, _ => (none : Option (List (List α))))
          = some (rs.set j (rowOp (rowAt rs j) (rowAt rs i)
              (elt rs j c / elt rs i c) c w)) := by
        rw [eltC_eq rs w j c hrect hjl hc, eltC_eq rs w i c hrect hih hc,
          List.getElem?_eq_getElem hih, List.getElem?_eq_getElem hjl]
        show (if elt rs i c = 0 then none
            else match rowOpC rs[j] rs[i] (elt rs j c / elt rs i c) c w with
              | some newj => some (rs.set j newj)
              | none => none) = _
        rw [if_neg hpiv]
        rw [rowOpC_eq rs[j] rs[i] (elt rs j c / elt rs i c) c w
          (hrect _ (List.getElem_mem hjl)) (hrect _ (List.getElem_mem hih))]
        rw [rowAt_eq_getElem rs j hjl, rowAt_eq_getElem rs i hih]
      rw [List.foldlM_cons, List.foldl_cons, hstep]
      apply ih
      · apply rect_set _ _ _ _ hrect
        rw [length_rowOp]
        exact rowAt_length rs w j hrect hjl
      · rw [List.length_set]
        exact hlen
      · exact fun j2 hj2 => hjs j2 (by simp [hj2])
      · rw [elt_set_ne rs j i c _ hjne]
        exact hpiv

theorem elimBelowColC_eq [Field α] [DecidableEq α] (rows : List (List α))
    (i c h w : Nat) (hrect : Rect rows w) (hlen : rows.length = h) (hi : i < h)
    (hc : c < w) (hpiv : elt rows i c ≠ 0) :
    elimBelowColC rows i c h w = some (elimBelowCol rows i c h w) := by
  unfold elimBelowColC elimBelowCol
  apply elimBelowColC_foldlM i c h w hi hc _ rows hrect hlen ?_ hpiv
  intro j hj
  rw [List.mem_range'] at hj
  obtain ⟨k, hk, rfl⟩ := hj
  omega

theorem rowEchelonGoC_eq [Field α] [DecidableEq α] (h w : Nat) :
    ∀ fuel i (rows : List (List α)), Rect rows w → rows.length = h →
      goodPivots h w fuel i rows = true →
      rowEchelonGoC h w fuel i 0 rows = some (rowEchelonGo h w fuel i 0 rows) := by
  intro fuel
  induction fuel with
  | zero =>
      intro i rows _ _ _
      rfl
  | succ fuel ih =>
      intro i rows hrect hlen hgood
      rw [goodPivots] at hgood
      rw [rowEchelonGoC, rowEchelonGo]
      by_cases hi : i < h - 1
      · simp only [if_pos hi] at hgood ⊢
        simp only [Nat.add_zero]
        by_cases hoff : w ≤ i
        · simp only [if_pos hoff]
        · simp only [if_neg hoff] at hgood ⊢
          have hil : i < rows.length := by rw [hlen]; omega
          have hiw : i < w := by omega
          simp only [eltC_eq rows w i i hrect hil hiw]
          by_cases hz : elt rows i i = 0
          · simp only [if_pos hz] at hgood ⊢
            rcases hfp : findPivotRow rows i i h with _ | j
            · rw [hfp] at hgood
              simp at hgood
            · simp only [hfp] at hgood
              have hfpc : findPivotRowC rows i (List.range' (i + 1) (h - (i + 1)))
                  = some (some j) := by
                rw [findPivotRowC_eq rows w i h hrect hlen hiw _ ?_]
                · rw [show (List.range' (i + 1) (h - (i + 1))).find?
                      (fun j2 => elt rows j2 i ≠ 0) = some j from hfp]
                · intro j2 hj2
                  rw [List.mem_range'] at hj2
                  obtain ⟨k, hk, rfl⟩ := hj2
                  omega
              simp only [hfpc]
              have hjb := findPivotRow_lt rows i i h j hfp
              have hjl : j < rows.length := by rw [hlen]; omega
              simp only [swapRowsC_eq rows i j hil hjl]
              have hswr : Rect (swapRows rows i j) w :=
                rect_swapRows rows i j w hrect hil hjl
              have hswl : (swapRows rows i j).length = h := by
                rw [swapRows_length]
                exact hlen
              have hpiv2 : elt (swapRows rows i j) i i ≠ 0 := by
                rw [elt, rowAt_swap_i rows i j hil hjl]
                exact findPivotRow_spec rows i i h j hfp
              simp only [elimBelowColC_eq _ i i h w hswr hswl (by omega) hiw hpiv2]
              exact ih (i + 1) _ (elimBelowCol_len_rect _ i i h w hswr hswl).1
                (elimBelowCol_len_rect _ i i h w hswr hswl).2 hgood
          · simp only [if_neg hz] at hgood ⊢
            simp only [elimBelowColC_eq rows i i h w hrect hlen (by omega) hiw hz]
            exact ih (i + 1) _ (elimBelowCol_len_rect rows i i h w hrect hlen).1
              (elimBelowCol_len_rect rows i i h w hrect hlen).2 hgood
      · simp only [if_neg hi]

/-- C4 counterexample: on the 2 by 1 zero matrix over the rationals the
elimination that follows the mid-iteration offset increment indexes column 1
of a row of length 1, out of bounds (where the Rust code panics), so the
checked row_echelon fails; the claimed totality and in-bounds property is
false. -/
theorem row_echelon_safety_cex : row_echelonC (⟨[[0], [0]]⟩ : Matrix ℚ) = none := by
  norm_num [row_echelonC, rowEchelonGoC, elimBelowColC, findPivotRowC, eltC, swapRowsC,
    rowOpC, elt, rowAt, Matrix.height, Matrix.width, List.range']

/-- C4 (amended): row_echelon increments the column offset without swapping
when the pivot column is entirely zero at and below the working row, and it
stops eliminating when the pivot column index would exceed the matrix width
as checked at the start of an iteration; after a mid-iteration offset
increment the same iteration eliminates with the new offset without
re-checking bounds or the pivot, so element accesses and pivot divisions are
only guaranteed in bounds and by a nonzero pivot on matrices where every
examined pivot column has a nonzero entry at or below the working row. -/
theorem row_echelon_safety_spec {α : Type} [Field α] [DecidableEq α] :
    (∀ (h w fuel i off : Nat) (rows : List (List α)), i < h - 1 → w ≤ i + off →
      rowEchelonGo h w fuel i off rows = rows) ∧
    (∀ (h w fuel i off : Nat) (rows : List (List α)), i < h - 1 → i + off < w →
      elt rows i (i + off) = 0 → findPivotRow rows i (i + off) h = none →
      rowEchelonGo h w (fuel + 1) i off rows
        = rowEchelonGo h w fuel (i + 1) (off + 1) (elimBelowCol rows i (i + off + 1) h w)) ∧
    (∀ m : Matrix α, IsRect m →
      goodPivots m.height m.width (m.height - 1) 0 m.entries = true →
      row_echelonC m = some m.row_echelon) := by
  refine ⟨?_, ?_, ?_⟩
  · intro h w fuel i off rows hi hoff
    cases fuel with
    | zero => rfl
    | succ fuel =>
        rw [rowEchelonGo]
        simp only [if_pos hi, if_pos hoff]
  · intro h w fuel i off rows hi hoffw hz hfp
    rw [rowEchelonGo]
    simp only [if_pos hi, if_neg (not_le.2 hoffw), if_pos hz, hfp]
  · intro m hm hgood
    rw [row_echelonC]
    rw [rowEchelonGoC_eq m.height m.width (m.height - 1) 0 m.entries hm rfl hgood]
    rfl

/-- C4 witness: the break case on a concrete state, and the checked run on a
concrete well-pivoted matrix. -/
theorem row_echelon_safety_witness :
    rowEchelonGo 3 1 1 0 1 [[(0 : ℚ)], [0], [0]] = [[(0 : ℚ)], [0], [0]] ∧
    row_echelonC (⟨[[1, 2], [3, 4]]⟩ : Matrix ℚ)
      = some (⟨[[1, 2], [3, 4]]⟩ : Matrix ℚ).row_echelon := by
  constructor
  · exact row_echelon_safety_spec.1 3 1 1 0 1 [[(0 : ℚ)], [0], [0]] (by omega) (by omega)
  · exact row_echelon_safety_spec.2.2 (⟨[[1, 2], [3, 4]]⟩ : Matrix ℚ)
      (by intro r hr; fin_cases hr <;> rfl)
      (by norm_num [goodPivots, elt, rowAt, findPivotRow, elimBelowCol, rowOp,
        List.range', Matrix.height, Matrix.width])

/-! ### C5: reduced row echelon -/

theorem find?_range'_eq_some (p : Nat → Bool) :
    ∀ (n a k : Nat), a ≤ k → k < a + n → p k = true →
      (∀ j, a ≤ j → j < k → p j = false) →
      (List.range' a n).find? p = some k := by
  intro n
  induction n with
  | zero =>
      intro a k h1 h2 _ _
      exact ((by omega : False)).elim
  | succ n ih =>
      intro a k h1 h2 hp hzero
      rw [List.range'_succ, List.find?_cons]
      by_cases hak : a = k
      · subst hak
        rw [hp]
      · have hpa : p a = false := hzero a (le_refl a) (by omega)
        rw [hpa]
        exact ih (a + 1) k (by omega) (by omega) hp (fun j hj1 hj2 => hzero j (by omega) hj2)

theorem find?_range'_eq_some_inv (p : Nat → Bool) :
    ∀ (n a k : Nat), (List.range' a n).find? p = some k →
      p k = true ∧ a ≤ k ∧ k < a + n ∧ ∀ j, a ≤ j → j < k → p j = false := by
  intro n
  induction n with
  | zero =>
      intro a k h
      exact Option.noConfusion h
  | succ n ih =>
      intro a k h
      rw [List.range'_succ, List.find?_cons] at h
      cases hpa : p a with
      | true =>
          simp only [hpa] at h
          obtain rfl : a = k := by
            injection h
          exact ⟨hpa, le_refl a, by omega, fun j hj1 hj2 => by omega⟩
      | false =>
          simp only [hpa] at h
          obtain ⟨g1, g2, g3, g4⟩ := ih (a + 1) k h
          refine ⟨g1, by omega, by omega, fun j hj1 hj2 => ?_⟩
          by_cases hja : j = a
          · subst hja
            exact hpa
          · exact g4 j (by omega) hj2

theorem leadIdx_spec [Zero α] [DecidableEq α] (row : List α) (k : Nat)
    (h : leadIdx row = some k) :
    k < row.length ∧ row.getD k 0 ≠ 0 ∧ ∀ j, j < k → row.getD j 0 = 0 := by
  unfold leadIdx at h
  rw [List.range_eq_range'] at h
  obtain ⟨g1, _, g3, g4⟩ := find?_range'_eq_some_inv _ row.length 0 k h
  refine ⟨by omega, by simpa using g1, fun j hj => ?_⟩
  have := g4 j (by omega) hj
  simpa using this

theorem scanNonzero_eq [Zero α] [DecidableEq α] (row : List α) (off k : Nat)
    (h : leadIdx row = some k) (hoff : off ≤ k) : scanNonzero row off = k := by
  obtain ⟨hk, hnz, hzero⟩ := leadIdx_spec row k h
  unfold scanNonzero
  rw [find?_range'_eq_some _ (row.length - off) off k hoff (by omega)
    (by simpa using hnz)
    (fun j _ hj2 => by
      simp only [decide_eq_false_iff_not, ne_eq, not_not]
      exact hzero j hj2)]

theorem scanNonzeroC_eq [Zero α] [DecidableEq α] (row : List α) (k : Nat)
    (h : leadIdx row = some k) :
    ∀ (fuel off : Nat), off ≤ k → k - off < fuel → scanNonzeroC row fuel off = some k := by
  obtain ⟨hk, hnz, hzero⟩ := leadIdx_spec row k h
  intro fuel
  induction fuel with
  | zero =>
      intro off h1 h2
      exact ((by omega : False)).elim
  | succ fuel ih =>
      intro off h1 h2
      rw [scanNonzeroC]
      have hoffl : off < row.length := by omega
      simp only [List.getElem?_eq_getElem hoffl]
      by_cases hok : off = k
      · subst hok
        rw [if_neg (by rw [← List.getD_eq_getElem row 0 hoffl]; exact hnz)]
      · rw [if_pos (by rw [← List.getD_eq_getElem row 0 hoffl]; exact hzero off (by omega))]
        exact ih (off + 1) (by omega) (by omega)

theorem divideFrom_getD_lt [Field α] (row : List α) (k j : Nat) (hj : j < k)
    (hk : k ≤ row.length) : (divideFrom row k).getD j 0 = row.getD j 0 := by
  have hjl : j < row.length := by omega
  have htot : j < (divideFrom row k).length := by
    rw [length_divideFrom]
    omega
  rw [List.getD_eq_getElem _ _ htot]
  have hjt : j < (row.take k).length := by
    rw [List.length_take]
    omega
  have hjapp : j < (row.take k ++ (row.drop k).map (fun x => x / row.getD k 0)).length :=
    htot
  show (row.take k ++ (row.drop k).map (fun x => x / row.getD k 0))[j] = _
  rw [List.getElem_append]
  rw [dif_pos hjt]
  rw [List.getElem_take]
  exact (List.getD_eq_getElem _ _ hjl).symm

theorem divideFrom_getD_ge [Field α] (row : List α) (k j : Nat) (hkj : k ≤ j)
    (hj : j < row.length) :
    (divideFrom row k).getD j 0 = row.getD j 0 / row.getD k 0 := by
  have htot : j < (divideFrom row k).length := by
    rw [length_divideFrom]
    exact hj
  rw [List.getD_eq_getElem _ _ htot]
  have htk : (row.take k).length = k := by
    rw [List.length_take]
    omega
  have hjapp : j < (row.take k ++ (row.drop k).map (fun x => x / row.getD k 0)).length :=
    htot
  show (row.take k ++ (row.drop k).map (fun x => x / row.getD k 0))[j] = _
  rw [List.getElem_append]
  rw [dif_neg (by rw [htk]; omega)]
  simp only [htk]
  rw [List.getElem_map]
  rw [List.getElem_drop]
  have hidx : k + (j - k) = j := by omega
  have hbk : k + (j - k) < row.length := by omega
  have h1 : row[k + (j - k)] = row[j] := by
    have h2 : row[k + (j - k)]? = row[j]? := by rw [hidx]
    rw [List.getElem?_eq_getElem (show k + (j - k) < row.length by omega),
      List.getElem?_eq_getElem hj] at h2
    exact Option.some.inj h2
  rw [h1]
  rw [List.getD_eq_getElem row 0 hj]

theorem divideFrom_pivot_one [Field α] [DecidableEq α] (row : List α) (k : Nat)
    (h : leadIdx row = some k) :
    leadIdx (divideFrom row k) = some k ∧ (divideFrom row k).getD k 0 = 1 := by
  obtain ⟨hk, hnz, hzero⟩ := leadIdx_spec row k h
  have hpv : (divideFrom row k).getD k 0 = 1 := by
    rw [divideFrom_getD_ge row k k (le_refl k) hk]
    exact div_self hnz
  refine ⟨?_, hpv⟩
  unfold leadIdx
  rw [List.range_eq_range']
  apply find?_range'_eq_some
  · omega
  · rw [length_divideFrom]
    omega
  · simp only [decide_eq_true_eq, ne_eq]
    rw [hpv]
    exact fun hcon => one_ne_zero hcon
  · intro j _ hj2
    simp only [decide_eq_false_iff_not, ne_eq, not_not]
    rw [divideFrom_getD_lt row k j hj2 (by omega)]
    exact hzero j hj2

theorem rreGo_wf_eq [Field α] [DecidableEq α] :
    ∀ (rows : List (List α)) (off : Nat), wellFormedEchelon rows off = true →
      rreGo rows off = rows.map specNormalizeRow ∧
      rreGoC rows off = some (rows.map specNormalizeRow) := by
  intro rows
  induction rows with
  | nil =>
      intro off _
      exact ⟨rfl, rfl⟩
  | cons row rest ih =>
      intro off hwf
      rw [wellFormedEchelon] at hwf
      rcases hlead : leadIdx row with _ | k
      · rw [hlead] at hwf
        cases hwf
      · simp only [hlead] at hwf
        rw [Bool.and_eq_true] at hwf
        obtain ⟨hoffk, hwfrest⟩ := hwf
        have hoffk2 : off ≤ k := by simpa using hoffk
        have hkl : k < row.length := (leadIdx_spec row k hlead).1
        obtain ⟨ih1, ih2⟩ := ih (k + 1) hwfrest
        have hnorm : divideFrom row k = specNormalizeRow row := by
          rw [specNormalizeRow, hlead]
        constructor
        · rw [rreGo]
          rw [scanNonzero_eq row off k hlead hoffk2]
          rw [ih1, List.map_cons, hnorm]
        · rw [rreGoC]
          simp only [scanNonzeroC_eq row k hlead (row.length + 1) off hoffk2 (by omega)]
          simp only [ih2]
          rw [List.map_cons, hnorm]

/-- C5 counterexample: the row echelon form of [[1,2],[2,4]] over the
rationals is [[1,2],[0,0]], whose second row is entirely zero; the
normalization scan of reduced_row_echelon then runs past the end of the row
(where the Rust code panics on an out-of-range index), so the function does
not equal the claimed normalized echelon form on this input. -/
theorem reduced_row_echelon_cex :
    reduced_row_echelonC (⟨[[1, 2], [2, 4]]⟩ : Matrix ℚ) = none := by
  norm_num [reduced_row_echelonC, rreGoC, scanNonzeroC, Matrix.row_echelon, rowEchelonGo,
    elimBelowCol, findPivotRow, rowOp, swapRows, elt, rowAt, Matrix.height, Matrix.width,
    List.range', divideFrom]

/-- C5 (amended): whenever every row of the row echelon form has a leading
nonzero entry and the leading indices strictly increase (so the running
offset scan stays inside each row), reduced_row_echelon equals the row
echelon form with each row divided, from its leading nonzero entry
rightward, by that leading entry, and every pivot of the result is the
multiplicative identity; on other inputs the normalization scan runs out of
the row and the source panics. -/
theorem reduced_row_echelon_spec {α : Type} [Field α] [DecidableEq α] (m : Matrix α)
    (hwf : wellFormedEchelon m.row_echelon.entries 0 = true) :
    m.reduced_row_echelon = ⟨m.row_echelon.entries.map specNormalizeRow⟩ ∧
    reduced_row_echelonC m = some ⟨m.row_echelon.entries.map specNormalizeRow⟩ ∧
    (∀ row ∈ m.row_echelon.entries, ∀ k, leadIdx row = some k →
      leadIdx (specNormalizeRow row) = some k ∧ (specNormalizeRow row).getD k 0 = 1) := by
  obtain ⟨h1, h2⟩ := rreGo_wf_eq m.row_echelon.entries 0 hwf
  refine ⟨?_, ?_, ?_⟩
  · rw [Matrix.reduced_row_echelon, h1]
  · rw [reduced_row_echelonC, h2]
  · intro row _ k hlead
    have := divideFrom_pivot_one row k hlead
    rw [show specNormalizeRow row = divideFrom row k by rw [specNormalizeRow, hlead]]
    exact this

/-- C5 witness: the concrete matrix from the test suite. -/
theorem reduced_row_echelon_spec_witness :
    (⟨[[1, 2], [3, 4]]⟩ : Matrix ℚ).reduced_row_echelon
      = ⟨(⟨[[1, 2], [3, 4]]⟩ : Matrix ℚ).row_echelon.entries.map specNormalizeRow⟩ := by
  exact (reduced_row_echelon_spec (⟨[[1, 2], [3, 4]]⟩ : Matrix ℚ)
    (by norm_num [wellFormedEchelon, Matrix.row_echelon, rowEchelonGo, elimBelowCol,
      findPivotRow, rowOp, swapRows, elt, rowAt, Matrix.height, Matrix.width,
      List.range', leadIdx, List.find?])).1

/-! ### C1: determinant agreement, part 1: list access toolkit -/

theorem getD_set_ne (l : List α) (k2 k : Nat) (a d : α) (hne : k2 ≠ k) :
    (l.set k2 a).getD k d = l.getD k d := by
  rw [List.getD_eq_getElem?_getD, List.getD_eq_getElem?_getD, List.getElem?_set_ne hne]

theorem getD_set_self (l : List α) (k : Nat) (a d : α) (hk : k < l.length) :
    (l.set k a).getD k d = a := by
  rw [List.getD_eq_getElem?_getD, List.getElem?_set_self hk]
  rfl

theorem rowOp_getD [Ring α] (rowi : List α) (c0 : α) (w : Nat) :
    ∀ (start : Nat) (rowj : List α) (k : Nat), rowj.length = w →
      (rowOp rowj rowi c0 start w).getD k 0
        = if start ≤ k ∧ k < w then rowj.getD k 0 - rowi.getD k 0 * c0
          else rowj.getD k 0 := by
  have main : ∀ (n start : Nat) (rowj : List α) (k : Nat), rowj.length = w →
      start + n ≤ w →
      ((List.range' start n).foldl
        (fun rj k2 => rj.set k2 (rj.getD k2 0 - rowi.getD k2 0 * c0)) rowj).getD k 0
      = if start ≤ k ∧ k < start + n then rowj.getD k 0 - rowi.getD k 0 * c0
        else rowj.getD k 0 := by
    intro n
    induction n with
    | zero =>
        intro start rowj k _ _
        rw [if_neg (by omega)]
        rfl
    | succ n ih =>
        intro start rowj k hl hb
        rw [List.range'_succ, List.foldl_cons]
        by_cases hks : k = start
        · subst hks
          rw [ih (k + 1) _ k (by rw [List.length_set]; exact hl) (by omega)]
          rw [if_neg (by omega), if_pos (by omega)]
          exact getD_set_self rowj k _ 0 (by rw [hl]; omega)
        · rw [ih (start + 1) _ k (by rw [List.length_set]; exact hl) (by omega)]
          by_cases hc : start + 1 ≤ k ∧ k < start + 1 + n
          · rw [if_pos hc, if_pos (by omega)]
            rw [getD_set_ne rowj start k _ 0 (by omega)]
          · rw [if_neg hc, if_neg (by omega)]
            exact getD_set_ne rowj start k _ 0 (by omega)
  intro start rowj k hl
  unfold rowOp
  by_cases hsw : start ≤ w
  · rw [main (w - start) start rowj k hl (by omega)]
    by_cases hc : start ≤ k ∧ k < w
    · rw [if_pos (by obtain ⟨h1, h2⟩ := hc; omega : start ≤ k ∧ k < start + (w - start)),
        if_pos hc]
    · rw [if_neg (fun hcon => hc ⟨hcon.1, by obtain ⟨h1, h2⟩ := hcon; omega⟩), if_neg hc]
  · rw [show w - start = 0 from by omega]
    rw [if_neg (fun hcon => by obtain ⟨h1, h2⟩ := hcon; omega)]
    rfl

theorem toMat_apply [Zero α] (rows : List (List α)) (n : Nat) (i j : Fin n) :
    toMat rows n i j = elt rows i.1 j.1 := rfl

theorem toMat_ext [Zero α] (rows rows2 : List (List α)) (n : Nat)
    (h : ∀ i j : Fin n, elt rows i.1 j.1 = elt rows2 i.1 j.1) :
    toMat rows n = toMat rows2 n := by
  ext i j
  exact h i j

/-- Setting row j to the row operation result is an updateRow of the model,
provided the pivot row has zeros left of the start column. -/
theorem toMat_set_rowOp [CommRing α] (rs : List (List α)) (h i j c : Nat) (ratio : α)
    (hrect : Rect rs h) (hlen : rs.length = h) (hi : i < h) (hj : j < h)
    (hzero : ∀ k, k < c → elt rs i k = 0) :
    toMat (rs.set j (rowOp (rowAt rs j) (rowAt rs i) ratio c h)) h
      = (toMat rs h).updateRow ⟨j, hj⟩
          ((toMat rs h) ⟨j, hj⟩ - ratio • (toMat rs h) ⟨i, hi⟩) := by
  ext r k
  rw [Matrix.updateRow_apply]
  by_cases hrj : r = (⟨j, hj⟩ : Fin h)
  · rw [if_pos hrj]
    subst hrj
    show elt (rs.set j (rowOp (rowAt rs j) (rowAt rs i) ratio c h)) j k.1 = _
    rw [elt, rowAt_set_self rs j _ (by rw [hlen]; exact hj)]
    rw [rowOp_getD (rowAt rs i) ratio h c (rowAt rs j) k.1
      (rowAt_length rs h j hrect (by rw [hlen]; exact hj))]
    have hrhs : ((toMat rs h) ⟨j, hj⟩ - ratio • (toMat rs h) ⟨i, hi⟩) k
        = elt rs j k.1 - ratio * elt rs i k.1 := rfl
    rw [hrhs]
    by_cases hck : c ≤ k.1
    · rw [if_pos ⟨hck, k.2⟩]
      show elt rs j k.1 - elt rs i k.1 * ratio = _
      ring
    · rw [if_neg (by omega)]
      rw [hzero k.1 (by omega)]
      show elt rs j k.1 = elt rs j k.1 - ratio * 0
      ring
  · rw [if_neg hrj]
    show elt (rs.set j _) r.1 k.1 = elt rs r.1 k.1
    rw [elt_set_ne]
    intro hcon
    exact hrj (Fin.ext hcon.symm)

/-- The swap is a row permutation of the model. -/
theorem toMat_swap [Zero α] (rows : List (List α)) (h i j : Nat)
    (hlen : rows.length = h) (hi : i < h) (hj : j < h) :
    toMat (swapRows rows i j) h
      = (toMat rows h).submatrix (Equiv.swap ⟨i, hi⟩ ⟨j, hj⟩) id := by
  ext r k
  rw [Matrix.submatrix_apply]
  show elt (swapRows rows i j) r.1 k.1 = elt rows ((Equiv.swap (⟨i, hi⟩ : Fin h) ⟨j, hj⟩) r).1 k.1
  rw [Equiv.swap_apply_def]
  by_cases hri : r = (⟨i, hi⟩ : Fin h)
  · rw [if_pos hri]
    subst hri
    rw [elt, rowAt_swap_i rows i j (by rw [hlen]; exact hi) (by rw [hlen]; exact hj)]
    rfl
  · rw [if_neg hri]
    by_cases hrj : r = (⟨j, hj⟩ : Fin h)
    · rw [if_pos hrj]
      subst hrj
      rw [elt, rowAt_swap_j rows i j (by rw [hlen]; exact hj)]
      rfl
    · rw [if_neg hrj]
      rw [elt, rowAt_swap_other rows i j r.1
        (fun hcon => hri (Fin.ext hcon)) (fun hcon => hrj (Fin.ext hcon))]
      rfl

theorem det_toMat_swap [CommRing α] (rows : List (List α)) (h i j : Nat)
    (hlen : rows.length = h) (hi : i < h) (hj : j < h) (hij : i ≠ j) :
    (toMat (swapRows rows i j) h).det = -(toMat rows h).det := by
  rw [toMat_swap rows h i j hlen hi hj]
  rw [Matrix.det_permute]
  rw [Equiv.Perm.sign_swap (fun hcon => hij (Fin.mk.inj hcon))]
  simp



/-! ### C1, part 2: elimination and determinant lemmas -/

theorem elimBelow_fold_main [Field α] [DecidableEq α] (h i c : Nat) (hi : i < h) :
    ∀ (js : List Nat) (rs : List (List α)), Rect rs h → rs.length = h →
      js.Nodup → (∀ j ∈ js, j < h ∧ j ≠ i) →
      (∀ k, k < c → elt rs i k = 0) →
      Rect (js.foldl (fun rs j =>
        rs.set j (rowOp (rowAt rs j) (rowAt rs i) (elt rs j c / elt rs i c) c h)) rs) h ∧
      (js.foldl (fun rs j =>
        rs.set j (rowOp (rowAt rs j) (rowAt rs i) (elt rs j c / elt rs i c) c h)) rs).length
        = h ∧
      (∀ r, r ∉ js → rowAt (js.foldl (fun rs j =>
        rs.set j (rowOp (rowAt rs j) (rowAt rs i) (elt rs j c / elt rs i c) c h)) rs) r
        = rowAt rs r) ∧
      (∀ j ∈ js, rowAt (js.foldl (fun rs j =>
        rs.set j (rowOp (rowAt rs j) (rowAt rs i) (elt rs j c / elt rs i c) c h)) rs) j
        = rowOp (rowAt rs j) (rowAt rs i) (elt rs j c / elt rs i c) c h) ∧
      (toMat (js.foldl (fun rs j =>
        rs.set j (rowOp (rowAt rs j) (rowAt rs i) (elt rs j c / elt rs i c) c h)) rs) h).det
        = (toMat rs h).det := by
  intro js
  induction js with
  | nil =>
      intro rs h1 h2 _ _ _
      exact ⟨h1, h2, fun r _ => rfl, fun j hj => absurd hj (List.not_mem_nil j), rfl⟩
  | cons j js ih =>
      intro rs h1 h2 hnd hjs hzero
      obtain ⟨hjh, hjne⟩ := hjs j (by simp)
      have hjl : j < rs.length := by rw [h2]; exact hjh
      have hil : i < rs.length := by rw [h2]; exact hi
      have hnd2 : js.Nodup := (List.nodup_cons.1 hnd).2
      have hjnotin : j ∉ js := (List.nodup_cons.1 hnd).1
      rw [List.foldl_cons]
      set rs2 := rs.set j (rowOp (rowAt rs j) (rowAt rs i) (elt rs j c / elt rs i c) c h)
        with hrs2
      have g1 : Rect rs2 h := by
        apply rect_set _ _ _ _ h1
        rw [length_rowOp]
        exact rowAt_length rs h j h1 hjl
      have g2 : rs2.length = h := by
        rw [hrs2, List.length_set]
        exact h2
      have grow_i : rowAt rs2 i = rowAt rs i := rowAt_set_ne rs j i _ hjne
      have gzero : ∀ k, k < c → elt rs2 i k = 0 := by
        intro k hk
        rw [elt, grow_i]
        exact hzero k hk
      have gdet : (toMat rs2 h).det = (toMat rs h).det := by
        rw [hrs2, toMat_set_rowOp rs h i j c (elt rs j c / elt rs i c) h1 h2 hi hjh hzero]
        rw [show ((toMat rs h) ⟨j, hjh⟩ - (elt rs j c / elt rs i c) • (toMat rs h) ⟨i, hi⟩)
            = ((toMat rs h) ⟨j, hjh⟩ + (-(elt rs j c / elt rs i c)) • (toMat rs h) ⟨i, hi⟩)
          from by rw [neg_smul, ← sub_eq_add_neg]]
        exact Matrix.det_updateRow_add_smul_self (toMat rs h)
          (fun hcon => hjne (Fin.mk.inj hcon)) (-(elt rs j c / elt rs i c))
      obtain ⟨k1, k2, k3, k4, k5⟩ := ih rs2 g1 g2 hnd2
        (fun j2 hj2 => hjs j2 (by simp [hj2])) gzero
      refine ⟨k1, k2, ?_, ?_, by rw [k5, gdet]⟩
      · intro r hr
        rw [k3 r (fun hcon => hr (by simp [hcon]))]
        rw [hrs2]
        exact rowAt_set_ne rs j r _ (fun hcon => hr (by simp [hcon]))
      · intro j2 hj2
        rcases List.mem_cons.1 hj2 with rfl | hj2in
        · rw [k3 j2 hjnotin, hrs2]
          exact rowAt_set_self rs j2 _ hjl
        · have hj2ne : j ≠ j2 := fun hcon => hjnotin (hcon ▸ hj2in)
          rw [k4 j2 hj2in]
          rw [show rowAt rs2 j2 = rowAt rs j2 from rowAt_set_ne rs j j2 _ hj2ne]
          rw [grow_i]
          rw [show elt rs2 j2 c = elt rs j2 c from elt_set_ne rs j j2 c _ hj2ne]
          rw [show elt rs2 i c = elt rs i c from elt_set_ne rs j i c _ hjne]

theorem triBelow_swap [Zero α] (rows : List (List α)) (h i j : Nat)
    (hlen : rows.length = h) (hi : i < h) (hj : j < h) (hij : i ≤ j)
    (htri : TriBelow rows i h) : TriBelow (swapRows rows i j) i h := by
  intro c r hc hcr hrh
  rw [elt]
  by_cases hri : r = i
  · rw [hri]
    rw [rowAt_swap_i rows i j (by rw [hlen]; exact hi) (by rw [hlen]; exact hj)]
    exact htri c j hc (by omega) hj
  · by_cases hrj : r = j
    · rw [hrj]
      rw [rowAt_swap_j rows i j (by rw [hlen]; exact hj)]
      exact htri c i hc (by omega) hi
    · rw [rowAt_swap_other rows i j r hri hrj]
      exact htri c r hc hcr hrh

/-- After eliminating below pivot i (pivot nonzero), the triangular
invariant advances one column and the determinant is unchanged. -/
theorem elimBelowCol_det_tri [Field α] [DecidableEq α] (rows : List (List α))
    (h i : Nat) (hrect : Rect rows h) (hlen : rows.length = h) (hi : i < h)
    (htri : TriBelow rows i h) (hpiv : elt rows i i ≠ 0) :
    Rect (elimBelowCol rows i i h h) h ∧ (elimBelowCol rows i i h h).length = h ∧
    TriBelow (elimBelowCol rows i i h h) (i + 1) h ∧
    (toMat (elimBelowCol rows i i h h) h).det = (toMat rows h).det := by
  have hzero : ∀ k, k < i → elt rows i k = 0 := fun k hk => htri k i hk hk hi
  obtain ⟨k1, k2, k3, k4, k5⟩ := elimBelow_fold_main h i i hi
    (List.range' (i + 1) (h - (i + 1))) rows hrect hlen (List.nodup_range' ..)
    (fun j hj => by
      rw [List.mem_range'] at hj
      obtain ⟨k, hk, rfl⟩ := hj
      omega)
    hzero
  have hE : elimBelowCol rows i i h h
      = (List.range' (i + 1) (h - (i + 1))).foldl
        (fun rs j =>
          rs.set j (rowOp (rowAt rs j) (rowAt rs i) (elt rs j i / elt rs i i) i h))
        rows := rfl
  rw [hE]
  refine ⟨k1, k2, ?_, k5⟩
  intro c r hc hcr hrh
  by_cases hrin : r ∈ List.range' (i + 1) (h - (i + 1))
  · rw [elt, k4 r hrin]
    have hrgt : i < r := by
      rw [List.mem_range'] at hrin
      obtain ⟨k, hk, rfl⟩ := hrin
      omega
    rw [rowOp_getD (rowAt rows i) (elt rows r i / elt rows i i) h i (rowAt rows r) c
      (rowAt_length rows h r hrect (by rw [hlen]; exact hrh))]
    by_cases hci : c < i
    · rw [if_neg (by omega)]
      exact htri c r hci hcr hrh
    · have hceq : c = i := by omega
      subst hceq
      rw [if_pos ⟨le_refl c, by omega⟩]
      show elt rows r c - elt rows c c * (elt rows r c / elt rows c c) = 0
      rw [mul_comm, div_mul_cancel₀ (elt rows r c) hpiv]
      exact sub_self _
  · rw [elt, k3 r hrin]
    have hrle : r ≤ i := by
      by_contra hcon
      apply hrin
      rw [List.mem_range']
      exact ⟨r - (i + 1), by omega, by omega⟩
    exact htri c r (by omega) hcr hrh

theorem diagFold_enumFrom [CommRing α] (l : List (List α)) :
    ∀ (s : Nat) (m0 : α),
      (l.enumFrom s).foldl (fun acc p => acc * p.2.getD p.1 0) m0
        = m0 * ∏ k ∈ Finset.range l.length, (rowAt l k).getD (s + k) 0 := by
  induction l with
  | nil =>
      intro s m0
      simp
  | cons r t ih =>
      intro s m0
      rw [List.enumFrom_cons, List.foldl_cons]
      rw [ih (s + 1) (m0 * r.getD s 0)]
      rw [List.length_cons,
        Finset.prod_range_succ' (fun k => (rowAt (r :: t) k).getD (s + k) 0) t.length]
      have hconv : ∏ k ∈ Finset.range t.length, (rowAt (r :: t) (k + 1)).getD (s + (k + 1)) 0
          = ∏ k ∈ Finset.range t.length, (rowAt t k).getD (s + 1 + k) 0 := by
        apply Finset.prod_congr rfl
        intro k _
        rw [show rowAt (r :: t) (k + 1) = rowAt t k from rfl,
          show s + (k + 1) = s + 1 + k by omega]
      rw [hconv]
      rw [show (rowAt (r :: t) 0).getD (s + 0) 0 = r.getD s 0 from rfl]
      ring

theorem findPivotRow_none [Zero α] [DecidableEq α] (rows : List (List α)) (i c h : Nat)
    (hfp : findPivotRow rows i c h = none) (j : Nat) (hj1 : i < j) (hj2 : j < h) :
    elt rows j c = 0 := by
  unfold findPivotRow at hfp
  rw [List.find?_eq_none] at hfp
  have := hfp j (by
    rw [List.mem_range']
    exact ⟨j - (i + 1), by omega, by omega⟩)
  simpa using this

theorem det_eq_diagProd [CommRing α] (rows : List (List α)) (h : Nat)
    (htri : TriBelow rows (h - 1) h) :
    (toMat rows h).det = ∏ k : Fin h, toMat rows h k k := by
  apply Matrix.det_of_upperTriangular
  intro r c hrc
  have hlt : c.1 < r.1 := hrc
  exact htri c.1 r.1 (by omega) hlt r.2

/-- On a matrix whose first i pivot columns are already triangular but whose
column i is zero from row i down, the determinant vanishes. -/
theorem det_zero_of_zero_pivot_col [CommRing α] :
    ∀ (i n : Nat) (M : FinMat n α), i < n →
      (∀ c r : Fin n, c.1 < i → c.1 < r.1 → M r c = 0) →
      (∀ r : Fin n, i ≤ r.1 → ∀ (hin : i < n), M r ⟨i, hin⟩ = 0) →
      M.det = 0 := by
  intro i
  induction i with
  | zero =>
      intro n M hin htri hcol
      apply Matrix.det_eq_zero_of_column_eq_zero ⟨0, hin⟩
      intro r
      exact hcol r (by omega) hin
  | succ i ih =>
      intro n M hin htri hcol
      obtain ⟨n2, rfl⟩ : ∃ n2, n = n2 + 1 := ⟨n - 1, by omega⟩
      have hminor : (M.submatrix (Fin.succAbove 0) Fin.succ).det = 0 := by
        rw [Fin.succAbove_zero]
        refine ih n2 _ (by omega) ?_ ?_
        · intro c r hc hcr
          show M (Fin.succ r) (Fin.succ c) = 0
          exact htri c.succ r.succ (by rw [Fin.val_succ]; omega)
            (by rw [Fin.val_succ, Fin.val_succ]; omega)
        · intro r hr hin2
          show M (Fin.succ r) (Fin.succ ⟨i, hin2⟩) = 0
          exact hcol r.succ (by rw [Fin.val_succ]; omega) hin
      have hsum : ∑ r : Fin (n2 + 1),
          (-1) ^ (r : ℕ) * M r 0 * (M.submatrix r.succAbove Fin.succ).det
          = (-1) ^ ((0 : Fin (n2 + 1)) : ℕ) * M 0 0
            * (M.submatrix (Fin.succAbove 0) Fin.succ).det := by
        apply Finset.sum_eq_single_of_mem
        · exact Finset.mem_univ 0
        · intro b _ hb0
          have hb : 0 < b.1 := by
            rcases Nat.eq_zero_or_pos b.1 with h0 | h0
            · exact absurd (Fin.ext (by rw [h0]; rfl)) hb0
            · exact h0
          rw [htri 0 b (by simp) hb, mul_zero, zero_mul]
      rw [Matrix.det_succ_column_zero, hsum, hminor, mul_zero]

theorem diagFold_eq [CommRing α] (rows : List (List α)) (h : Nat) (m0 : α)
    (hlen : rows.length = h) :
    diagFold rows m0 = m0 * ∏ k : Fin h, toMat rows h k k := by
  unfold diagFold
  rw [show rows.enum = rows.enumFrom 0 from rfl]
  rw [diagFold_enumFrom rows 0 m0]
  rw [hlen]
  congr 1
  rw [show (∏ k : Fin h, toMat rows h k k) = ∏ k : Fin h, elt rows k.1 k.1 from rfl]
  rw [Fin.prod_univ_eq_prod_range (fun k => elt rows k k) h]
  apply Finset.prod_congr rfl
  intro k _
  rw [elt, Nat.zero_add]

/-- The diagonal case of detFieldGo at loop end: the matrix is triangular, so
the diagonal fold computes mult times the determinant. -/
theorem diagFold_det [Field α] (rows : List (List α)) (h : Nat) (m0 : α)
    (hlen : rows.length = h) (htri : TriBelow rows (h - 1) h) :
    diagFold rows m0 = m0 * (toMat rows h).det := by
  rw [diagFold_eq rows h m0 hlen, det_eq_diagProd rows h htri]

/-- Invariant of the det_in_field loop: with the triangular invariant at the
working row, detFieldGo computes mult times the determinant. -/
theorem detFieldGo_eq [Field α] [DecidableEq α] (h : Nat) (hpos : 0 < h) :
    ∀ (fuel i : Nat) (rows : List (List α)) (mult : α),
      fuel + i = h - 1 →
      Rect rows h → rows.length = h → TriBelow rows i h →
      detFieldGo h h fuel i rows mult = mult * (toMat rows h).det := by
  intro fuel
  induction fuel with
  | zero =>
      intro i rows mult hfi hrect hlen htri
      rw [detFieldGo]
      exact diagFold_det rows h mult hlen (by rw [show h - 1 = i from by omega]; exact htri)
  | succ fuel ih =>
      intro i rows mult hfi hrect hlen htri
      have hih : i < h - 1 := by omega
      rw [detFieldGo, if_pos hih]
      by_cases hz : elt rows i i = 0
      · rw [if_pos hz]
        rcases hfp : findPivotRow rows i i h with _ | j
        · simp only [hfp]
          have hdet0 : (toMat rows h).det = 0 := by
            apply det_zero_of_zero_pivot_col i h (toMat rows h) (by omega)
              (fun c r hc hcr => htri c.1 r.1 hc hcr r.2)
            intro r hr hin
            show elt rows r.1 i = 0
            rcases Nat.eq_or_lt_of_le hr with hri | hri
            · rw [show r.1 = i from hri.symm]
              exact hz
            · exact findPivotRow_none rows i i h hfp r.1 hri r.2
          rw [hdet0, mul_zero]
        · simp only [hfp]
          obtain ⟨hj1, hj2⟩ := findPivotRow_lt rows i i h j hfp
          have hswrect : Rect (swapRows rows i j) h :=
            rect_swapRows rows i j h hrect (by rw [hlen]; omega) (by rw [hlen]; omega)
          have hswlen : (swapRows rows i j).length = h := by
            rw [swapRows_length]
            exact hlen
          have hswtri : TriBelow (swapRows rows i j) i h :=
            triBelow_swap rows h i j hlen (by omega) hj2 (by omega) htri
          have hswpiv : elt (swapRows rows i j) i i ≠ 0 := by
            rw [elt, rowAt_swap_i rows i j (by rw [hlen]; omega) (by rw [hlen]; exact hj2)]
            exact findPivotRow_spec rows i i h j hfp
          obtain ⟨e1, e2, e3, e4⟩ := elimBelowCol_det_tri (swapRows rows i j) h i
            hswrect hswlen (by omega) hswtri hswpiv
          rw [ih (i + 1) _ (-mult) (by omega) e1 e2 e3, e4,
            det_toMat_swap rows h i j hlen (by omega) hj2 (by omega)]
          ring
      · rw [if_neg hz]
        obtain ⟨e1, e2, e3, e4⟩ := elimBelowCol_det_tri rows h i hrect hlen
          (by omega) htri hz
        rw [ih (i + 1) _ mult (by omega) e1 e2 e3, e4]

/-! ### C1, part 3: the cofactor determinant equals the Mathlib determinant -/

theorem submatrix_zero_rect (m : Matrix α) (n i : Nat)
    (hrect : Rect m.entries (n + 1)) (hlen : m.entries.length = n + 1)
    (hi : i < n + 1) :
    Rect (m.submatrix 0 i).entries n ∧ (m.submatrix 0 i).entries.length = n := by
  rw [submatrix_entries]
  constructor
  · intro r hr
    obtain ⟨row0, hrow0, rfl⟩ := List.mem_map.1 hr
    have hmem : row0 ∈ m.entries := List.eraseIdx_subset _ _ hrow0
    have hl0 : row0.length = n + 1 := hrect row0 hmem
    rw [List.length_eraseIdx_of_lt (by rw [hl0]; exact hi), hl0]
    omega
  · rw [List.length_map, List.length_eraseIdx_of_lt (by rw [hlen]; omega), hlen]
    omega

theorem toMat_sub_eq [Zero α] (m : Matrix α) (n i : Nat)
    (hrect : Rect m.entries (n + 1)) (hlen : m.entries.length = n + 1)
    (hi : i < n + 1) :
    toMat (m.submatrix 0 i).entries n
      = (toMat m.entries (n + 1)).submatrix Fin.succ (Fin.succAbove ⟨i, hi⟩) := by
  have hel : (m.entries.eraseIdx 0).length = n := by
    rw [List.length_eraseIdx_of_lt (by rw [hlen]; omega), hlen]
    omega
  ext r c
  have hr1 : r.1 + 1 < m.entries.length := by rw [hlen]; exact Nat.succ_lt_succ r.2
  have hrowlen : (m.entries[r.1 + 1]).length = n + 1 := hrect _ (List.getElem_mem hr1)
  have hrowAt : rowAt (m.submatrix 0 i).entries r.1
      = (m.entries[r.1 + 1]).eraseIdx i := by
    rw [submatrix_entries, rowAt]
    rw [List.getD_eq_getElem _ _ (by rw [List.length_map, hel]; exact r.2)]
    rw [List.getElem_map]
    congr 1
    exact List.getElem_eraseIdx_of_ge m.entries 0 r.1 (by rw [hel]; exact r.2) (by omega)
  have hrowAt2 : rowAt m.entries (r.1 + 1) = m.entries[r.1 + 1] := by
    rw [rowAt, List.getD_eq_getElem _ _ hr1]
  have hlhs : toMat (m.submatrix 0 i).entries n r c
      = ((m.entries[r.1 + 1]).eraseIdx i).getD c.1 0 := by
    show elt (m.submatrix 0 i).entries r.1 c.1 = _
    rw [elt, hrowAt]
  have hrhs : (toMat m.entries (n + 1)).submatrix Fin.succ (Fin.succAbove ⟨i, hi⟩) r c
      = (m.entries[r.1 + 1]).getD ((Fin.succAbove (⟨i, hi⟩ : Fin (n + 1)) c)).1 0 := by
    rw [Matrix.submatrix_apply]
    show elt m.entries (Fin.succ r).1 ((Fin.succAbove (⟨i, hi⟩ : Fin (n + 1)) c)).1 = _
    rw [elt, show (Fin.succ r).1 = r.1 + 1 from rfl, hrowAt2]
  rw [hlhs, hrhs]
  by_cases hci : c.1 < i
  · rw [show (Fin.succAbove (⟨i, hi⟩ : Fin (n + 1)) c).1 = c.1 from by
      rw [Fin.succAbove_of_castSucc_lt _ _ (by exact hci)]
      rfl]
    rw [List.getD_eq_getElem _ _ (by
        rw [List.length_eraseIdx_of_lt (by rw [hrowlen]; exact hi), hrowlen]
        omega),
      List.getD_eq_getElem _ _ (by rw [hrowlen]; omega)]
    exact List.getElem_eraseIdx_of_lt _ _ _ _ hci
  · rw [show (Fin.succAbove (⟨i, hi⟩ : Fin (n + 1)) c).1 = c.1 + 1 from by
      rw [Fin.succAbove_of_le_castSucc _ _ (by simp [Fin.le_def]; omega)]
      rfl]
    rw [List.getD_eq_getElem _ _ (by
        rw [List.length_eraseIdx_of_lt (by rw [hrowlen]; exact hi), hrowlen]
        have := c.2
        omega),
      List.getD_eq_getElem _ _ (by rw [hrowlen]; have := c.2; omega)]
    exact List.getElem_eraseIdx_of_ge _ _ _ _ (by omega)

/-- The recursive cofactor expansion computes the Mathlib determinant of the
embedded matrix, for every rectangular nonempty square matrix. -/
theorem det_ok_toMat [CommRing α] :
    ∀ (n : Nat) (m : Matrix α), Rect m.entries n → m.entries.length = n → 0 < n →
      m.det = .ok (toMat m.entries n).det := by
  intro n
  induction n with
  | zero =>
      intro m _ _ hpos
      omega
  | succ n2 ih =>
      intro m hrect hlen _
      have hwidth : m.width = n2 + 1 := by
        rw [Matrix.width]
        exact hrect _ (rowAt_mem m.entries 0 (by rw [hlen]; omega))
      have hsq : m.is_square = true := by
        rw [Matrix.is_square, Matrix.height, hlen, hwidth]
        exact beq_self_eq_true _
      rcases Nat.eq_zero_or_pos n2 with h20 | h2pos
      · subst h20
        rw [Matrix.det, if_pos hsq, if_pos (by rw [hwidth])]
        rw [Matrix.det_fin_one]
        rfl
      · have hw1 : ¬ m.width = 1 := by rw [hwidth]; omega
        rw [Matrix.det, if_pos hsq, if_neg hw1]
        refine congrArg Except.ok ?_
        refine (foldl_signed_sum
          (fun i => m.entry 0 i * unwrap ((m.submatrix 0 i).det)) m.width).trans ?_
        rw [hwidth]
        rw [Matrix.det_succ_row_zero (toMat m.entries (n2 + 1))]
        rw [← Fin.sum_univ_eq_sum_range
          (fun i => if i % 2 = 0 then m.entry 0 i * unwrap ((m.submatrix 0 i).det)
            else -(m.entry 0 i * unwrap ((m.submatrix 0 i).det))) (n2 + 1)]
        apply Finset.sum_congr rfl
        intro j _
        obtain ⟨hsr, hsl⟩ := submatrix_zero_rect m n2 j.1 hrect hlen j.2
        have hunw : unwrap ((m.submatrix 0 j.1).det)
            = ((toMat m.entries (n2 + 1)).submatrix Fin.succ
                (Fin.succAbove ⟨j.1, j.2⟩)).det := by
          rw [ih (m.submatrix 0 j.1) hsr hsl h2pos,
            toMat_sub_eq m n2 j.1 hrect hlen j.2]
          rfl
        by_cases hj2 : j.1 % 2 = 0
        · rw [if_pos hj2, Even.neg_one_pow (Nat.even_iff.2 hj2), one_mul, hunw]
          rfl
        · rw [if_neg hj2, Odd.neg_one_pow (Nat.odd_iff.2 (by omega)), hunw,
            neg_one_mul, neg_mul]
          rfl

/-! ### C1: determinant agreement -/

/-- C1: on every rectangular nonempty matrix over a field, det and
det_in_field return Ok of the same value (the determinant of the embedded
matrix) when the matrix is square, and both return the NotSquare error when
it is not. -/
theorem det_agreement [Field α] [DecidableEq α] (m : Matrix α)
    (hrect : Rect m.entries m.width) (hpos : 0 < m.height) :
    (m.is_square = true →
      m.det = .ok ((toMat m.entries m.height).det) ∧
      m.det_in_field = .ok ((toMat m.entries m.height).det)) ∧
    (m.is_square = false →
      m.det = .error .NotSquare ∧ m.det_in_field = .error .NotSquare) := by
  constructor
  · intro hsq
    have hhw : m.height = m.width := by
      rw [Matrix.is_square] at hsq
      exact beq_iff_eq.1 hsq
    have hrect2 : Rect m.entries m.height := by
      rw [hhw]
      exact hrect
    constructor
    · exact det_ok_toMat m.height m hrect2 rfl hpos
    · rw [Matrix.det_in_field, if_pos hsq]
      rw [show m.width = m.height from hhw.symm]
      rw [detFieldGo_eq m.height hpos (m.height - 1) 0 m.entries 1 (by omega)
        hrect2 rfl (fun c r hc _ _ => absurd hc (Nat.not_lt_zero c))]
      rw [one_mul]
  · intro hsq
    have hns : ¬ m.is_square = true := by
      rw [hsq]
      exact Bool.false_ne_true
    constructor
    · rw [Matrix.det, if_neg hns]
    · rw [Matrix.det_in_field, if_neg hns]

/-- C1 witness: the agreement at a concrete square rational matrix. -/
theorem det_agreement_witness :
    ((⟨[[1, 2], [3, 4]]⟩ : Matrix ℚ).is_square = true →
      (⟨[[1, 2], [3, 4]]⟩ : Matrix ℚ).det
        = .ok ((toMat (⟨[[1, 2], [3, 4]]⟩ : Matrix ℚ).entries
            (⟨[[1, 2], [3, 4]]⟩ : Matrix ℚ).height).det) ∧
      (⟨[[1, 2], [3, 4]]⟩ : Matrix ℚ).det_in_field
        = .ok ((toMat (⟨[[1, 2], [3, 4]]⟩ : Matrix ℚ).entries
            (⟨[[1, 2], [3, 4]]⟩ : Matrix ℚ).height).det)) ∧
    ((⟨[[1, 2], [3, 4]]⟩ : Matrix ℚ).is_square = false →
      (⟨[[1, 2], [3, 4]]⟩ : Matrix ℚ).det = .error .NotSquare ∧
      (⟨[[1, 2], [3, 4]]⟩ : Matrix ℚ).det_in_field = .error .NotSquare) :=
  det_agreement (⟨[[1, 2], [3, 4]]⟩ : Matrix ℚ)
    (by intro r hr; fin_cases hr <;> rfl) (by norm_num [Matrix.height])

/-! ### C3, part 1: matrix algebra helpers for the inverse -/

theorem updateRow_mul_right [CommRing α] {n : Nat} (M N : FinMat n α) (i : Fin n)
    (v : Fin n → α) :
    (M.updateRow i v) * N = (M * N).updateRow i (fun j => ∑ k, v k * N k j) := by
  ext r j
  by_cases hri : r = i
  · subst hri
    rw [Matrix.mul_apply, Matrix.updateRow_self, Matrix.updateRow_self]
  · rw [Matrix.mul_apply, Matrix.updateRow_ne hri, Matrix.updateRow_ne hri,
      Matrix.mul_apply]

theorem row_sub_smul_mul [CommRing α] {n : Nat} (M N : FinMat n α) (i j : Fin n)
    (r : α) :
    (fun c => ∑ k, (M j - r • M i) k * N k c) = (M * N) j - r • (M * N) i := by
  funext c
  show ∑ k, (M j k - r * M i k) * N k c = (M * N) j c - r * (M * N) i c
  rw [Matrix.mul_apply, Matrix.mul_apply, Finset.mul_sum, ← Finset.sum_sub_distrib]
  apply Finset.sum_congr rfl
  intro k _
  ring

theorem row_smul_mul [CommRing α] {n : Nat} (M N : FinMat n α) (i : Fin n) (r : α) :
    (fun c => ∑ k, (r • M i) k * N k c) = r • (M * N) i := by
  funext c
  show ∑ k, (r * M i k) * N k c = r * (M * N) i c
  rw [Matrix.mul_apply, Finset.mul_sum]
  apply Finset.sum_congr rfl
  intro k _
  ring

theorem submatrix_row_mul [CommRing α] {n : Nat} (M N : FinMat n α)
    (σ : Equiv.Perm (Fin n)) :
    (M.submatrix σ id) * N = (M * N).submatrix σ id := by
  ext i j
  rw [Matrix.submatrix_apply, Matrix.mul_apply, Matrix.mul_apply]
  apply Finset.sum_congr rfl
  intro k _
  rw [Matrix.submatrix_apply]
  rfl

theorem identity_elt [Zero α] [One α] (n i j : Nat) (hi : i < n) (hj : j < n) :
    elt (Matrix.identity n : Matrix α).entries i j = (if i = j then 1 else 0) := by
  have hrow : rowAt (Matrix.identity n : Matrix α).entries i
      = ((List.range n).map (fun _ => (0 : α))).set i 1 := by
    rw [rowAt, List.getD_eq_getElem?_getD]
    rw [show (Matrix.identity n : Matrix α).entries
        = ((Matrix.zero n n : Matrix α)).entries.enum.map (fun p => p.2.set p.1 1)
      from rfl]
    rw [List.getElem?_map, List.getElem?_enum]
    rw [show ((Matrix.zero n n : Matrix α)).entries
        = (List.range n).map (fun _ => (List.range n).map (fun _ => (0 : α))) from rfl]
    rw [List.getElem?_map, List.getElem?_range hi]
    rfl
  rw [elt, hrow]
  by_cases hij : i = j
  · subst hij
    rw [List.getD_eq_getElem _ _ (by
      rw [List.length_set, List.length_map, List.length_range]
      exact hi)]
    rw [List.getElem_set_self (by simpa using hi)]
    rw [if_pos rfl]
  · rw [List.getD_eq_getElem _ _ (by
      rw [List.length_set, List.length_map, List.length_range]
      exact hj)]
    rw [List.getElem_set_ne hij]
    rw [List.getElem_map]
    rw [if_neg hij]

theorem toMat_identity [Zero α] [One α] (n : Nat) :
    toMat (Matrix.identity n : Matrix α).entries n = 1 := by
  ext r c
  show elt (Matrix.identity n : Matrix α).entries r.1 c.1 = (1 : FinMat n α) r c
  rw [identity_elt n r.1 c.1 r.2 c.2, Matrix.one_apply]
  by_cases hrc : r = c
  · rw [if_pos hrc, if_pos (by rw [hrc])]
  · rw [if_neg (fun hcon => hrc (Fin.ext hcon)), if_neg hrc]

theorem toMat_inj [Zero α] (x y : List (List α)) (h : Nat)
    (hx : Rect x h) (hlx : x.length = h) (hy : Rect y h) (hly : y.length = h)
    (heq : toMat x h = toMat y h) : x = y := by
  apply List.ext_getElem (by rw [hlx, hly])
  intro i hi1 hi2
  apply List.ext_getElem (by rw [hx _ (List.getElem_mem hi1), hy _ (List.getElem_mem hi2)])
  intro j hj1 hj2
  have hih : i < h := by rw [← hlx]; exact hi1
  have hjh : j < h := by rw [← hx _ (List.getElem_mem hi1)]; exact hj1
  have := congrFun (congrFun heq ⟨i, hih⟩) ⟨j, hjh⟩
  rw [show toMat x h ⟨i, hih⟩ ⟨j, hjh⟩ = elt x i j from rfl,
    show toMat y h ⟨i, hih⟩ ⟨j, hjh⟩ = elt y i j from rfl] at this
  rw [elt_eq_getElem x i j (by rw [hlx]; exact hih) hj1] at this
  rw [elt_eq_getElem y i j (by rw [hly]; exact hih) hj2] at this
  exact this

/-- The embedded multiplication of two rectangular h by h matrices succeeds
and computes the product of the embedded matrices. -/
theorem mul_toMat [CommRing α] (a b : Matrix α) (h : Nat) (hpos : 0 < h)
    (ha : Rect a.entries h) (hla : a.entries.length = h)
    (hb : Rect b.entries h) (hlb : b.entries.length = h) :
    ∃ c, a.mul b = some c ∧ Rect c.entries h ∧ c.entries.length = h ∧
      toMat c.entries h = toMat a.entries h * toMat b.entries h := by
  have hwa : a.width = h := ha _ (rowAt_mem a.entries 0 (by rw [hla]; omega))
  have hwb : b.width = h := hb _ (rowAt_mem b.entries 0 (by rw [hlb]; omega))
  have hhb : b.height = h := hlb
  refine ⟨⟨a.rows.map (fun row =>
    b.columns.map (fun col =>
      (List.range' 1 (a.width - 1)).foldl
        (fun prod i => prod + row.getD i 0 * col.getD i 0)
        (row.getD 0 0 * col.getD 0 0)))⟩, ?_, ?_, ?_, ?_⟩
  · simp only [Matrix.mul]
    rw [if_neg (by omega)]
  · intro r hr
    obtain ⟨row, _, rfl⟩ := List.mem_map.1 hr
    rw [List.length_map, Matrix.columns, transpose_length, hwb]
  · rw [List.length_map]
    exact hla
  · ext r c
    show elt _ r.1 c.1 = _
    have hia : r.1 < a.entries.length := by rw [hla]; exact r.2
    have hrowlen : (a.rows.map (fun row =>
        b.columns.map (fun col =>
          (List.range' 1 (a.width - 1)).foldl
            (fun prod i => prod + row.getD i 0 * col.getD i 0)
            (row.getD 0 0 * col.getD 0 0)))).length = a.entries.length := by
      simp [Matrix.rows]
    rw [elt_eq_getD _ r.1 c.1 (by rw [hrowlen]; exact hia)]
    rw [List.getElem_map]
    have hjcols : c.1 < b.columns.length := by
      rw [Matrix.columns, transpose_length, hwb]
      exact c.2
    rw [List.getD_eq_getElem _ _ (by simpa using hjcols)]
    rw [List.getElem_map]
    have hcol : b.columns[c.1] = b.entries.map (fun row => row.getD c.1 0) :=
      transpose_getElem b c.1 (by rw [transpose_length, hwb]; exact c.2)
    rw [hcol]
    have hia2 : r.1 < a.rows.length := hia
    set row := a.rows[r.1] with hrow
    set col := b.entries.map (fun q => q.getD c.1 0) with hcolv
    have hstep := foldl_start_sum (fun k => row.getD k 0 * col.getD k 0) a.width
      (by rw [hwa]; exact hpos)
    rw [hstep]
    rw [Matrix.mul_apply]
    rw [← Fin.sum_univ_eq_sum_range (fun k => row.getD k 0 * col.getD k 0) a.width]
    rw [show ∑ k : Fin a.width, row.getD k.1 0 * col.getD k.1 0
        = ∑ k : Fin h, row.getD k.1 0 * col.getD k.1 0 from by rw [hwa]]
    apply Finset.sum_congr rfl
    intro k _
    show row.getD k.1 0 * col.getD k.1 0 = elt a.entries r.1 k.1 * elt b.entries k.1 c.1
    have h1 : row.getD k.1 0 = elt a.entries r.1 k.1 := by
      rw [elt_eq_getD a.entries r.1 k.1 hia, hrow]
      rfl
    have h2 : col.getD k.1 0 = elt b.entries k.1 c.1 := by
      rw [hcolv]
      have hkb : k.1 < b.entries.length := by rw [hlb]; exact k.2
      rw [List.getD_eq_getElem _ _ (by simpa using hkb)]
      rw [List.getElem_map]
      rw [elt_eq_getD b.entries k.1 c.1 hkb]
    rw [h1, h2]

/-! ### C3, part 2: forward elimination of the inverse -/

theorem invElim_fold_main [Field α] [DecidableEq α] (h i : Nat) (hi : i < h)
    (A : FinMat h α) :
    ∀ (js : List Nat) (rs out : List (List α)) (p : List (List α) × List (List α)),
      p = js.foldl (fun p j =>
        (p.1.set j (rowOp (rowAt p.1 j) (rowAt p.1 i) (elt p.1 j i / elt p.1 i i) i h),
         p.2.set j (rowOp (rowAt p.2 j) (rowAt p.2 i) (elt p.1 j i / elt p.1 i i) 0 h)))
        (rs, out) →
      Rect rs h → rs.length = h → Rect out h → out.length = h →
      (∀ j ∈ js, j < h ∧ j ≠ i) →
      (∀ k, k < i → elt rs i k = 0) →
      toMat rs h = toMat out h * A →
      p.1 = js.foldl (fun rs j =>
          rs.set j (rowOp (rowAt rs j) (rowAt rs i) (elt rs j i / elt rs i i) i h)) rs ∧
      Rect p.2 h ∧ p.2.length = h ∧
      toMat p.1 h = toMat p.2 h * A ∧
      (toMat p.2 h).det = (toMat out h).det := by
  intro js
  induction js with
  | nil =>
      intro rs out p hp h1 h2 h3 h4 _ _ hinv
      subst hp
      exact ⟨rfl, h3, h4, hinv, rfl⟩
  | cons j js ih =>
      intro rs out p hp h1 h2 h3 h4 hjs hzero hinv
      obtain ⟨hjh, hjne⟩ := hjs j (by simp)
      rw [List.foldl_cons] at hp
      set rs2 := rs.set j
        (rowOp (rowAt rs j) (rowAt rs i) (elt rs j i / elt rs i i) i h) with hrs2
      set out2 := out.set j
        (rowOp (rowAt out j) (rowAt out i) (elt rs j i / elt rs i i) 0 h) with hout2
      have g1 : Rect rs2 h := by
        apply rect_set _ _ _ _ h1
        rw [length_rowOp]
        exact rowAt_length rs h j h1 (by rw [h2]; exact hjh)
      have g2 : rs2.length = h := by rw [hrs2, List.length_set]; exact h2
      have g3 : Rect out2 h := by
        apply rect_set _ _ _ _ h3
        rw [length_rowOp]
        exact rowAt_length out h j h3 (by rw [h4]; exact hjh)
      have g4 : out2.length = h := by rw [hout2, List.length_set]; exact h4
      have gzero : ∀ k, k < i → elt rs2 i k = 0 := by
        intro k hk
        rw [hrs2, elt_set_ne rs j i k _ hjne]
        exact hzero k hk
      have hRmat : toMat rs2 h = (toMat rs h).updateRow ⟨j, hjh⟩
          ((toMat rs h) ⟨j, hjh⟩ - (elt rs j i / elt rs i i) • (toMat rs h) ⟨i, hi⟩) :=
        toMat_set_rowOp rs h i j i (elt rs j i / elt rs i i) h1 h2 hi hjh hzero
      have hOmat : toMat out2 h = (toMat out h).updateRow ⟨j, hjh⟩
          ((toMat out h) ⟨j, hjh⟩ - (elt rs j i / elt rs i i) • (toMat out h) ⟨i, hi⟩) :=
        toMat_set_rowOp out h i j 0 (elt rs j i / elt rs i i) h3 h4 hi hjh
          (fun k hk => absurd hk (Nat.not_lt_zero k))
      have hinv2 : toMat rs2 h = toMat out2 h * A := by
        rw [hRmat, hOmat, updateRow_mul_right, row_sub_smul_mul, ← hinv]
      have hdet2 : (toMat out2 h).det = (toMat out h).det := by
        rw [hOmat]
        rw [show ((toMat out h) ⟨j, hjh⟩
              - (elt rs j i / elt rs i i) • (toMat out h) ⟨i, hi⟩)
            = ((toMat out h) ⟨j, hjh⟩
              + (-(elt rs j i / elt rs i i)) • (toMat out h) ⟨i, hi⟩)
          from by rw [neg_smul, ← sub_eq_add_neg]]
        exact Matrix.det_updateRow_add_smul_self (toMat out h)
          (fun hcon => hjne (Fin.mk.inj hcon)) (-(elt rs j i / elt rs i i))
      obtain ⟨k1, k2, k3, k4, k5⟩ := ih rs2 out2 p hp g1 g2 g3 g4
        (fun j2 hj2 => hjs j2 (by simp [hj2])) gzero hinv2
      refine ⟨?_, k2, k3, k4, by rw [k5, hdet2]⟩
      rw [List.foldl_cons]
      exact k1

theorem invElimBelow_semantic [Field α] [DecidableEq α] (rows out : List (List α))
    (h i : Nat) (A : FinMat h α)
    (hrect : Rect rows h) (hlen : rows.length = h)
    (hrecto : Rect out h) (hleno : out.length = h) (hi : i < h)
    (htri : TriBelow rows i h)
    (hinv : toMat rows h = toMat out h * A) :
    (invElimBelow rows out i h h).1 = elimBelowCol rows i i h h ∧
    Rect (invElimBelow rows out i h h).2 h ∧
    (invElimBelow rows out i h h).2.length = h ∧
    toMat (invElimBelow rows out i h h).1 h
      = toMat (invElimBelow rows out i h h).2 h * A ∧
    (toMat (invElimBelow rows out i h h).2 h).det = (toMat out h).det := by
  have hzero : ∀ k, k < i → elt rows i k = 0 := fun k hk => htri k i hk hk hi
  have hmain := invElim_fold_main h i hi A (List.range' (i + 1) (h - (i + 1)))
    rows out (invElimBelow rows out i h h) rfl hrect hlen hrecto hleno
    (fun j hj => by
      rw [List.mem_range'] at hj
      obtain ⟨k, hk, rfl⟩ := hj
      omega)
    hzero hinv
  exact hmain

/-- The forward elimination loop of Matrix::inverse: a Singular error means
the embedded matrix has determinant zero, and success yields a triangular
pair still related by left multiplication with an invertible companion. -/
theorem invFwdGo_eq [Field α] [DecidableEq α] (h : Nat) (hpos : 0 < h)
    (A : FinMat h α) :
    ∀ (fuel i : Nat) (rows out : List (List α)),
      fuel + i = h - 1 →
      Rect rows h → rows.length = h → Rect out h → out.length = h →
      TriBelow rows i h →
      toMat rows h = toMat out h * A →
      (toMat out h).det ≠ 0 →
      (∀ e, invFwdGo h h fuel i rows out = .error e → e = .Singular ∧ A.det = 0) ∧
      (∀ rows2 out2, invFwdGo h h fuel i rows out = .ok (rows2, out2) →
        Rect rows2 h ∧ rows2.length = h ∧ Rect out2 h ∧ out2.length = h ∧
        TriBelow rows2 (h - 1) h ∧
        toMat rows2 h = toMat out2 h * A ∧ (toMat out2 h).det ≠ 0) := by
  intro fuel
  induction fuel with
  | zero =>
      intro i rows out hfi h1 h2 h3 h4 htri hinv hdet
      constructor
      · intro e heq
        rw [invFwdGo] at heq
        cases heq
      · intro rows2 out2 heq
        obtain ⟨rfl, rfl⟩ : rows = rows2 ∧ out = out2 := by
          simpa [invFwdGo, Prod.ext_iff] using heq
        exact ⟨h1, h2, h3, h4, by rw [show h - 1 = i from by omega]; exact htri,
          hinv, hdet⟩
  | succ fuel ih =>
      intro i rows out hfi h1 h2 h3 h4 htri hinv hdet
      have hih : i < h - 1 := by omega
      by_cases hz : elt rows i i = 0
      · rcases hfp : findPivotRow rows i i h with _ | j
        · have hstep : invFwdGo h h (fuel + 1) i rows out = .error .Singular := by
            rw [invFwdGo, if_pos hih, if_pos hz]
            simp only [hfp]
          have hdet0 : A.det = 0 := by
            have hR0 : (toMat rows h).det = 0 := by
              apply det_zero_of_zero_pivot_col i h (toMat rows h) (by omega)
                (fun c r hc hcr => htri c.1 r.1 hc hcr r.2)
              intro r hr hin
              show elt rows r.1 i = 0
              rcases Nat.eq_or_lt_of_le hr with hri | hri
              · rw [show r.1 = i from hri.symm]
                exact hz
              · exact findPivotRow_none rows i i h hfp r.1 hri r.2
            rw [hinv, Matrix.det_mul] at hR0
            rcases mul_eq_zero.1 hR0 with hco | hco
            · exact absurd hco hdet
            · exact hco
          constructor
          · intro e heq
            rw [hstep] at heq
            injection heq with he
            exact ⟨he.symm, hdet0⟩
          · intro rows2 out2 heq
            rw [hstep] at heq
            cases heq
        · have hstep : invFwdGo h h (fuel + 1) i rows out
              = invFwdGo h h fuel (i + 1)
                (invElimBelow (swapRows rows i j) (swapRows out i j) i h h).1
                (invElimBelow (swapRows rows i j) (swapRows out i j) i h h).2 := by
            rw [invFwdGo, if_pos hih, if_pos hz]
            simp only [hfp]
          obtain ⟨hj1, hj2⟩ := findPivotRow_lt rows i i h j hfp
          have hsw1 : Rect (swapRows rows i j) h :=
            rect_swapRows rows i j h h1 (by rw [h2]; omega) (by rw [h2]; exact hj2)
          have hsw1l : (swapRows rows i j).length = h := by
            rw [swapRows_length]; exact h2
          have hsw2 : Rect (swapRows out i j) h :=
            rect_swapRows out i j h h3 (by rw [h4]; omega) (by rw [h4]; exact hj2)
          have hsw2l : (swapRows out i j).length = h := by
            rw [swapRows_length]; exact h4
          have hswtri : TriBelow (swapRows rows i j) i h :=
            triBelow_swap rows h i j h2 (by omega) hj2 (by omega) htri
          have hswpiv : elt (swapRows rows i j) i i ≠ 0 := by
            rw [elt, rowAt_swap_i rows i j (by rw [h2]; omega) (by rw [h2]; exact hj2)]
            exact findPivotRow_spec rows i i h j hfp
          have hswinv : toMat (swapRows rows i j) h = toMat (swapRows out i j) h * A := by
            rw [toMat_swap rows h i j h2 (by omega) hj2,
              toMat_swap out h i j h4 (by omega) hj2,
              submatrix_row_mul, ← hinv]
          have hswdet : (toMat (swapRows out i j) h).det ≠ 0 := by
            rw [det_toMat_swap out h i j h4 (by omega) hj2 (by omega)]
            exact neg_ne_zero.2 hdet
          obtain ⟨e1, e2, e3, e4, e5⟩ := invElimBelow_semantic (swapRows rows i j)
            (swapRows out i j) h i A hsw1 hsw1l hsw2 hsw2l (by omega) hswtri hswinv
          obtain ⟨t1, t2, t3, _⟩ := elimBelowCol_det_tri (swapRows rows i j) h i
            hsw1 hsw1l (by omega) hswtri hswpiv
          have hind := ih (i + 1) _ _ (by omega)
            (by rw [e1]; exact t1) (by rw [e1]; exact t2) e2 e3
            (by rw [e1]; exact t3) e4 (by rw [e5]; exact hswdet)
          exact ⟨fun e heq => hind.1 e (by rw [hstep] at heq; exact heq),
            fun r2 o2 heq => hind.2 r2 o2 (by rw [hstep] at heq; exact heq)⟩
      · have hstep : invFwdGo h h (fuel + 1) i rows out
            = invFwdGo h h fuel (i + 1)
              (invElimBelow rows out i h h).1 (invElimBelow rows out i h h).2 := by
          rw [invFwdGo, if_pos hih, if_neg hz]
        obtain ⟨e1, e2, e3, e4, e5⟩ := invElimBelow_semantic rows out h i A
          h1 h2 h3 h4 (by omega) htri hinv
        obtain ⟨t1, t2, t3, _⟩ := elimBelowCol_det_tri rows h i h1 h2 (by omega) htri hz
        have hind := ih (i + 1) _ _ (by omega)
          (by rw [e1]; exact t1) (by rw [e1]; exact t2) e2 e3
          (by rw [e1]; exact t3) e4 (by rw [e5]; exact hdet)
        exact ⟨fun e heq => hind.1 e (by rw [hstep] at heq; exact heq),
          fun r2 o2 heq => hind.2 r2 o2 (by rw [hstep] at heq; exact heq)⟩

/-! ### C3, part 3: normalization of the inverse -/

theorem divideFrom_getD [Field α] (row : List α) (k c : Nat) (hc : c < row.length)
    (hk : k ≤ row.length) :
    (divideFrom row k).getD c 0
      = if c < k then row.getD c 0 else row.getD c 0 / row.getD k 0 := by
  unfold divideFrom
  rw [List.getD_eq_getElem?_getD, List.getD_eq_getElem?_getD row c]
  have htl : (row.take k).length = k := by
    rw [List.length_take]
    omega
  by_cases hck : c < k
  · rw [if_pos hck]
    rw [List.getElem?_append_left (by rw [htl]; exact hck)]
    rw [List.getElem?_take_of_lt hck]
  · rw [if_neg hck]
    rw [List.getElem?_append_right (by rw [htl]; omega)]
    rw [htl, List.getElem?_map, List.getElem?_drop]
    rw [show k + (c - k) = c from by omega]
    rw [List.getElem?_eq_getElem hc]
    rfl

theorem toMat_set_divideFrom [Field α] (rows : List (List α)) (h i : Nat)
    (hrect : Rect rows h) (hlen : rows.length = h) (hi : i < h)
    (hzero : ∀ k, k < i → elt rows i k = 0) :
    toMat (rows.set i (divideFrom (rowAt rows i) i)) h
      = (toMat rows h).updateRow ⟨i, hi⟩
          ((1 / elt rows i i) • (toMat rows h) ⟨i, hi⟩) := by
  have hrl : (rowAt rows i).length = h := rowAt_length rows h i hrect (by rw [hlen]; exact hi)
  ext r c
  by_cases hri : r = ⟨i, hi⟩
  · subst hri
    rw [Matrix.updateRow_self]
    show elt (rows.set i (divideFrom (rowAt rows i) i)) i c.1 = _
    rw [elt, rowAt_set_self rows i _ (by rw [hlen]; exact hi)]
    rw [divideFrom_getD (rowAt rows i) i c.1 (by rw [hrl]; exact c.2) (by rw [hrl]; omega)]
    rw [show ((1 / elt rows i i) • (toMat rows h) ⟨i, hi⟩) c
        = (1 / elt rows i i) * elt rows i c.1 from rfl]
    by_cases hci : c.1 < i
    · rw [if_pos hci]
      rw [show (rowAt rows i).getD c.1 0 = elt rows i c.1 from rfl]
      rw [hzero c.1 hci, mul_zero]
    · rw [if_neg hci]
      rw [show (rowAt rows i).getD c.1 0 = elt rows i c.1 from rfl]
      rw [show (rowAt rows i).getD i 0 = elt rows i i from rfl]
      rw [one_div, div_eq_inv_mul]
  · rw [Matrix.updateRow_ne hri]
    show elt (rows.set i (divideFrom (rowAt rows i) i)) r.1 c.1 = elt rows r.1 c.1
    rw [elt, rowAt_set_ne rows i r.1 _ (fun hcon => hri (Fin.ext hcon.symm))]
    rfl

theorem toMat_set_mapdiv [Field α] (out : List (List α)) (h i : Nat) (d : α)
    (hrect : Rect out h) (hlen : out.length = h) (hi : i < h) :
    toMat (out.set i ((rowAt out i).map (fun x => x / d))) h
      = (toMat out h).updateRow ⟨i, hi⟩ ((1 / d) • (toMat out h) ⟨i, hi⟩) := by
  have hrl : (rowAt out i).length = h := rowAt_length out h i hrect (by rw [hlen]; exact hi)
  ext r c
  by_cases hri : r = ⟨i, hi⟩
  · subst hri
    rw [Matrix.updateRow_self]
    show elt (out.set i ((rowAt out i).map (fun x => x / d))) i c.1 = _
    rw [elt, rowAt_set_self out i _ (by rw [hlen]; exact hi)]
    rw [List.getD_eq_getElem _ _ (by rw [List.length_map, hrl]; exact c.2)]
    rw [List.getElem_map]
    rw [show ((1 / d) • (toMat out h) ⟨i, hi⟩) c = (1 / d) * elt out i c.1 from rfl]
    have hcl : c.1 < (rowAt out i).length := by rw [hrl]; exact c.2
    rw [show (rowAt out i)[c.1] = elt out i c.1 from
      (List.getD_eq_getElem _ _ hcl).symm]
    rw [one_div, div_eq_inv_mul]
  · rw [Matrix.updateRow_ne hri]
    show elt (out.set i ((rowAt out i).map (fun x => x / d))) r.1 c.1 = elt out r.1 c.1
    rw [elt, rowAt_set_ne out i r.1 _ (fun hcon => hri (Fin.ext hcon.symm))]
    rfl

/-- The normalization loop of Matrix::inverse: a Singular error means the
matrix has determinant zero; success keeps the triangular form and the
companion relation and makes the processed diagonal entries one. -/
theorem invNormGo_eq [Field α] [DecidableEq α] (h : Nat) (A : FinMat h α) :
    ∀ (is : List Nat) (rows out : List (List α)),
      is.Nodup → (∀ j ∈ is, j < h) →
      Rect rows h → rows.length = h → Rect out h → out.length = h →
      TriBelow rows (h - 1) h →
      toMat rows h = toMat out h * A →
      (toMat out h).det ≠ 0 →
      (∀ e, invNormGo is rows out = .error e → e = .Singular ∧ A.det = 0) ∧
      (∀ rows2 out2, invNormGo is rows out = .ok (rows2, out2) →
        Rect rows2 h ∧ rows2.length = h ∧ Rect out2 h ∧ out2.length = h ∧
        TriBelow rows2 (h - 1) h ∧
        toMat rows2 h = toMat out2 h * A ∧
        (∀ j, j ∉ is → rowAt rows2 j = rowAt rows j) ∧
        (∀ j ∈ is, elt rows2 j j = 1)) := by
  intro is
  induction is with
  | nil =>
      intro rows out _ _ h1 h2 h3 h4 htri hinv hdet
      constructor
      · intro e heq
        rw [invNormGo] at heq
        cases heq
      · intro rows2 out2 heq
        obtain ⟨rfl, rfl⟩ : rows = rows2 ∧ out = out2 := by
          simpa [invNormGo, Prod.ext_iff] using heq
        exact ⟨h1, h2, h3, h4, htri, hinv, fun j _ => rfl,
          fun j hj => absurd hj (List.not_mem_nil j)⟩
  | cons i is ih =>
      intro rows out hnd his h1 h2 h3 h4 htri hinv hdet
      have hih : i < h := his i (by simp)
      have hnd2 : is.Nodup := (List.nodup_cons.1 hnd).2
      have hinotin : i ∉ is := (List.nodup_cons.1 hnd).1
      by_cases hz : elt rows i i = 0
      · have hstep : invNormGo (i :: is) rows out = .error .Singular := by
          rw [invNormGo, if_pos hz]
        have hdet0 : A.det = 0 := by
          have hR0 : (toMat rows h).det = 0 := by
            rw [det_eq_diagProd rows h htri]
            apply Finset.prod_eq_zero (Finset.mem_univ (⟨i, hih⟩ : Fin h))
            exact hz
          rw [hinv, Matrix.det_mul] at hR0
          rcases mul_eq_zero.1 hR0 with hco | hco
          · exact absurd hco hdet
          · exact hco
        constructor
        · intro e heq
          rw [hstep] at heq
          injection heq with he
          exact ⟨he.symm, hdet0⟩
        · intro rows2 out2 heq
          rw [hstep] at heq
          cases heq
      · have hstep : invNormGo (i :: is) rows out
            = invNormGo is (rows.set i (divideFrom (rowAt rows i) i))
              (out.set i ((rowAt out i).map (fun x => x / elt rows i i))) := by
          rw [invNormGo, if_neg hz]
        set rows2 := rows.set i (divideFrom (rowAt rows i) i) with hrows2
        set out2 := out.set i ((rowAt out i).map (fun x => x / elt rows i i)) with hout2
        have hzero : ∀ k, k < i → elt rows i k = 0 := by
          intro k hk
          exact htri k i (by omega) hk hih
        have g1 : Rect rows2 h := by
          apply rect_set _ _ _ _ h1
          rw [length_divideFrom]
          exact rowAt_length rows h i h1 (by rw [h2]; exact hih)
        have g2 : rows2.length = h := by rw [hrows2, List.length_set]; exact h2
        have g3 : Rect out2 h := by
          apply rect_set _ _ _ _ h3
          rw [List.length_map]
          exact rowAt_length out h i h3 (by rw [h4]; exact hih)
        have g4 : out2.length = h := by rw [hout2, List.length_set]; exact h4
        have hRmat : toMat rows2 h = (toMat rows h).updateRow ⟨i, hih⟩
            ((1 / elt rows i i) • (toMat rows h) ⟨i, hih⟩) :=
          toMat_set_divideFrom rows h i h1 h2 hih hzero
        have hOmat : toMat out2 h = (toMat out h).updateRow ⟨i, hih⟩
            ((1 / elt rows i i) • (toMat out h) ⟨i, hih⟩) :=
          toMat_set_mapdiv out h i (elt rows i i) h3 h4 hih
        have hinv2 : toMat rows2 h = toMat out2 h * A := by
          rw [hRmat, hOmat, updateRow_mul_right, row_smul_mul, ← hinv]
        have hdet2 : (toMat out2 h).det ≠ 0 := by
          rw [hOmat, Matrix.det_updateRow_smul, Matrix.updateRow_eq_self]
          exact mul_ne_zero (one_div_ne_zero hz) hdet
        have htri2 : TriBelow rows2 (h - 1) h := by
          intro c r hc hcr hrh
          by_cases hri : r = i
          · subst hri
            rw [elt, hrows2, rowAt_set_self rows r _ (by rw [h2]; exact hih)]
            rw [divideFrom_getD (rowAt rows r) r c
              (by rw [rowAt_length rows h r h1 (by rw [h2]; exact hih)]; omega)
              (by rw [rowAt_length rows h r h1 (by rw [h2]; exact hih)]; omega)]
            rw [if_pos hcr]
            exact htri c r hc hcr hrh
          · rw [hrows2, elt_set_ne rows i r c _ (fun hcon => hri hcon.symm)]
            exact htri c r hc hcr hrh
        have hdiag1 : elt rows2 i i = 1 := by
          rw [elt, hrows2, rowAt_set_self rows i _ (by rw [h2]; exact hih)]
          rw [divideFrom_getD (rowAt rows i) i i
            (by rw [rowAt_length rows h i h1 (by rw [h2]; exact hih)]; exact hih)
            (by rw [rowAt_length rows h i h1 (by rw [h2]; exact hih)]; omega)]
          rw [if_neg (by omega)]
          exact div_self hz
        obtain ⟨k1, k2⟩ := ih rows2 out2 hnd2 (fun j hj => his j (by simp [hj]))
          g1 g2 g3 g4 htri2 hinv2 hdet2
        constructor
        · intro e heq
          rw [hstep] at heq
          exact k1 e heq
        · intro r2 o2 heq
          rw [hstep] at heq
          obtain ⟨m1, m2, m3, m4, m5, m6, m7, m8⟩ := k2 r2 o2 heq
          refine ⟨m1, m2, m3, m4, m5, m6, ?_, ?_⟩
          · intro j hj
            have hji : j ≠ i := fun hcon => hj (by simp [hcon])
            rw [m7 j (fun hcon => hj (by simp [hcon]))]
            rw [hrows2]
            exact rowAt_set_ne rows i j _ (fun hcon => hji hcon.symm)
          · intro j hj
            rcases List.mem_cons.1 hj with rfl | hjin
            · rw [elt, m7 j hinotin]
              exact hdiag1
            · exact m8 j hjin

/-! ### C3, part 4: backward elimination of the inverse -/

theorem invBackInner_char [Field α] [DecidableEq α] (coef : List (List α)) (h i : Nat) :
    ∀ (js : List Nat) (out : List (List α)), Rect out h → out.length = h →
      js.Nodup → (∀ j ∈ js, j < h ∧ j ≠ i) →
      Rect (invBackInner coef h i js out) h ∧
      (invBackInner coef h i js out).length = h ∧
      (∀ r, r ∉ js → rowAt (invBackInner coef h i js out) r = rowAt out r) ∧
      (∀ j ∈ js, rowAt (invBackInner coef h i js out) j
        = rowOp (rowAt out j) (rowAt out i) (elt coef j i) 0 h) := by
  intro js
  induction js with
  | nil =>
      intro out h1 h2 _ _
      exact ⟨h1, h2, fun r _ => rfl, fun j hj => absurd hj (List.not_mem_nil j)⟩
  | cons j js ih =>
      intro out h1 h2 hnd hjs
      obtain ⟨hjh, hjne⟩ := hjs j (by simp)
      have hnd2 : js.Nodup := (List.nodup_cons.1 hnd).2
      have hjnotin : j ∉ js := (List.nodup_cons.1 hnd).1
      rw [invBackInner]
      set out2 := out.set j (rowOp (rowAt out j) (rowAt out i) (elt coef j i) 0 h)
        with hout2
      have g1 : Rect out2 h := by
        apply rect_set _ _ _ _ h1
        rw [length_rowOp]
        exact rowAt_length out h j h1 (by rw [h2]; exact hjh)
      have g2 : out2.length = h := by rw [hout2, List.length_set]; exact h2
      obtain ⟨k1, k2, k3, k4⟩ := ih out2 g1 g2 hnd2 (fun j2 hj2 => hjs j2 (by simp [hj2]))
      refine ⟨k1, k2, ?_, ?_⟩
      · intro r hr
        rw [k3 r (fun hcon => hr (by simp [hcon])), hout2,
          rowAt_set_ne out j r _ (fun hcon => hr (by simp [hcon]))]
      · intro j2 hj2
        rcases List.mem_cons.1 hj2 with rfl | hj2in
        · rw [k3 j2 hjnotin, hout2, rowAt_set_self out j2 _ (by rw [h2]; exact hjh)]
        · have hj2ne : j ≠ j2 := fun hcon => hjnotin (hcon ▸ hj2in)
          rw [k4 j2 hj2in, hout2, rowAt_set_ne out j j2 _ hj2ne,
            rowAt_set_ne out j i _ hjne]

theorem toMat_invBackInner [Field α] [DecidableEq α] (coef : List (List α))
    (h i : Nat) (hi : i < h) (A : FinMat h α) :
    ∀ (js : List Nat) (out q : List (List α)),
      Rect out h → out.length = h → Rect q h → q.length = h →
      (∀ j ∈ js, j < h) →
      toMat out h * A = toMat q h →
      toMat (invBackInner coef h i js out) h * A
        = toMat (invBackInner coef h i js q) h := by
  intro js
  induction js with
  | nil =>
      intro out q _ _ _ _ _ hinv
      exact hinv
  | cons j js ih =>
      intro out q h1 h2 h3 h4 hjs hinv
      have hjh : j < h := hjs j (by simp)
      rw [invBackInner, invBackInner]
      have g1 : Rect (out.set j (rowOp (rowAt out j) (rowAt out i) (elt coef j i) 0 h)) h := by
        apply rect_set _ _ _ _ h1
        rw [length_rowOp]
        exact rowAt_length out h j h1 (by rw [h2]; exact hjh)
      have g2 : (out.set j (rowOp (rowAt out j) (rowAt out i) (elt coef j i) 0 h)).length
          = h := by
        rw [List.length_set]
        exact h2
      have g3 : Rect (q.set j (rowOp (rowAt q j) (rowAt q i) (elt coef j i) 0 h)) h := by
        apply rect_set _ _ _ _ h3
        rw [length_rowOp]
        exact rowAt_length q h j h3 (by rw [h4]; exact hjh)
      have g4 : (q.set j (rowOp (rowAt q j) (rowAt q i) (elt coef j i) 0 h)).length = h := by
        rw [List.length_set]
        exact h4
      apply ih _ _ g1 g2 g3 g4 (fun j2 hj2 => hjs j2 (by simp [hj2]))
      have hOmat := toMat_set_rowOp out h i j 0 (elt coef j i) h1 h2 hi hjh
        (fun k hk => absurd hk (Nat.not_lt_zero k))
      have hQmat := toMat_set_rowOp q h i j 0 (elt coef j i) h3 h4 hi hjh
        (fun k hk => absurd hk (Nat.not_lt_zero k))
      rw [hOmat, hQmat, updateRow_mul_right, row_sub_smul_mul, hinv]

theorem toMat_invBackGo [Field α] [DecidableEq α] (coef : List (List α)) (h : Nat)
    (A : FinMat h α) :
    ∀ (i : Nat) (out q : List (List α)), i ≤ h - 1 → 0 < h →
      Rect out h → out.length = h → Rect q h → q.length = h →
      toMat out h * A = toMat q h →
      toMat (invBackGo coef h i out) h * A = toMat (invBackGo coef h i q) h := by
  intro i
  induction i with
  | zero =>
      intro out q _ _ _ _ _ _ hinv
      exact hinv
  | succ i ih =>
      intro out q hi hh h1 h2 h3 h4 hinv
      rw [invBackGo, invBackGo]
      have hjs : ∀ j ∈ (List.range (i + 1)).reverse, j < h := by
        intro j hj
        rw [List.mem_reverse, List.mem_range] at hj
        omega
      obtain ⟨g1, g2⟩ := invBackInner_len_rect coef h (i + 1) h h
        (List.range (i + 1)).reverse out h1 h2 hjs
      obtain ⟨g3, g4⟩ := invBackInner_len_rect coef h (i + 1) h h
        (List.range (i + 1)).reverse q h3 h4 hjs
      apply ih _ _ (by omega) hh g1 g2 g3 g4
      exact toMat_invBackInner coef h (i + 1) (by omega) A _ out q h1 h2 h3 h4 hjs hinv

/-- The ghost run: the backward elimination applied to the normalized
triangular matrix itself turns it into the identity. -/
theorem invBackGo_self [Field α] [DecidableEq α] (coef : List (List α)) (h : Nat)
    (hh : 0 < h) (htri : TriBelow coef (h - 1) h)
    (hdiag : ∀ k, k < h → elt coef k k = 1) :
    ∀ (i : Nat) (q : List (List α)), i ≤ h - 1 →
      Rect q h → q.length = h →
      (∀ r c : Fin h, c.1 ≤ i → toMat q h r c = toMat coef h r c) →
      (∀ r c : Fin h, i < c.1 → toMat q h r c = if r = c then 1 else 0) →
      toMat (invBackGo coef h i q) h = 1 := by
  intro i
  induction i with
  | zero =>
      intro q _ h1 h2 hInv1 hInv2
      show toMat q h = 1
      ext r c
      rcases Nat.eq_zero_or_pos c.1 with hc0 | hcpos
      · rw [hInv1 r c (by omega)]
        by_cases hrc : r = c
        · rw [hrc, Matrix.one_apply_eq]
          rw [show toMat coef h c c = elt coef c.1 c.1 from rfl]
          rw [show c.1 = 0 from hc0]
          exact hdiag 0 hh
        · rw [Matrix.one_apply_ne hrc]
          show elt coef r.1 c.1 = 0
          have hrpos : 0 < r.1 := by
            rcases Nat.eq_zero_or_pos r.1 with h0 | h0
            · exact absurd (Fin.ext (by omega)) hrc
            · exact h0
          rw [show c.1 = 0 from hc0]
          exact htri 0 r.1 (by omega) (by omega) r.2
      · rw [hInv2 r c (by omega), Matrix.one_apply]
  | succ i ih =>
      intro q hi h1 h2 hInv1 hInv2
      rw [invBackGo]
      have hi1h : i + 1 < h := by omega
      have hjsp : ∀ j ∈ (List.range (i + 1)).reverse, j < h ∧ j ≠ i + 1 := by
        intro j hj
        rw [List.mem_reverse, List.mem_range] at hj
        omega
      obtain ⟨k1, k2, k3, k4⟩ := invBackInner_char coef h (i + 1)
        (List.range (i + 1)).reverse q h1 h2
        (List.nodup_reverse.2 (List.nodup_range (i + 1))) hjsp
      have hq1 : ∀ c : Fin h, toMat q h ⟨i + 1, hi1h⟩ c
          = if c.1 = i + 1 then 1 else 0 := by
        intro c
        by_cases hc : c.1 = i + 1
        · rw [if_pos hc]
          rw [hInv1 ⟨i + 1, hi1h⟩ c (by omega)]
          show elt coef (i + 1) c.1 = 1
          rw [hc]
          exact hdiag (i + 1) hi1h
        · rw [if_neg hc]
          rcases Nat.lt_or_ge c.1 (i + 1) with hlt | hge
          · rw [hInv1 ⟨i + 1, hi1h⟩ c (by omega)]
            exact htri c.1 (i + 1) (by omega) hlt hi1h
          · rw [hInv2 ⟨i + 1, hi1h⟩ c (by omega)]
            rw [if_neg (fun hcon => hc (congrArg Fin.val hcon).symm)]
      apply ih _ (by omega) k1 k2
      · intro r c hc
        by_cases hrin : r.1 ∈ (List.range (i + 1)).reverse
        · have hr_le : r.1 ≤ i := by
            rw [List.mem_reverse, List.mem_range] at hrin
            omega
          show elt (invBackInner coef h (i + 1) (List.range (i + 1)).reverse q) r.1 c.1 = _
          rw [elt, k4 r.1 hrin]
          rw [rowOp_getD (rowAt q (i + 1)) (elt coef r.1 (i + 1)) h 0 (rowAt q r.1) c.1
            (rowAt_length q h r.1 h1 (by rw [h2]; exact r.2))]
          rw [if_pos ⟨Nat.zero_le _, c.2⟩]
          rw [show (rowAt q r.1).getD c.1 0 = toMat q h r c from rfl]
          rw [show (rowAt q (i + 1)).getD c.1 0 = toMat q h ⟨i + 1, hi1h⟩ c from rfl]
          rw [hq1 c, if_neg (by omega), zero_mul, sub_zero]
          exact hInv1 r c (by omega)
        · show elt (invBackInner coef h (i + 1) (List.range (i + 1)).reverse q) r.1 c.1 = _
          rw [elt, k3 r.1 hrin]
          exact hInv1 r c (by omega)
      · intro r c hc
        by_cases hrin : r.1 ∈ (List.range (i + 1)).reverse
        · have hr_le : r.1 ≤ i := by
            rw [List.mem_reverse, List.mem_range] at hrin
            omega
          show elt (invBackInner coef h (i + 1) (List.range (i + 1)).reverse q) r.1 c.1 = _
          rw [elt, k4 r.1 hrin]
          rw [rowOp_getD (rowAt q (i + 1)) (elt coef r.1 (i + 1)) h 0 (rowAt q r.1) c.1
            (rowAt_length q h r.1 h1 (by rw [h2]; exact r.2))]
          rw [if_pos ⟨Nat.zero_le _, c.2⟩]
          rw [show (rowAt q r.1).getD c.1 0 = toMat q h r c from rfl]
          rw [show (rowAt q (i + 1)).getD c.1 0 = toMat q h ⟨i + 1, hi1h⟩ c from rfl]
          rw [hq1 c]
          by_cases hci : c.1 = i + 1
          · rw [if_pos hci, one_mul]
            rw [hInv1 r c (by omega)]
            rw [show toMat coef h r c = elt coef r.1 c.1 from rfl, hci, sub_self]
            rw [if_neg (fun hcon => by
              have := congrArg Fin.val hcon
              omega)]
          · rw [if_neg hci, zero_mul, sub_zero]
            rw [hInv2 r c (by omega)]
        · have hr_gt : i < r.1 := by
            by_contra hcon
            apply hrin
            rw [List.mem_reverse, List.mem_range]
            omega
          show elt (invBackInner coef h (i + 1) (List.range (i + 1)).reverse q) r.1 c.1 = _
          rw [elt, k3 r.1 hrin]
          rw [show (rowAt q r.1).getD c.1 0 = toMat q h r c from rfl]
          by_cases hci : c.1 = i + 1
          · rw [hInv1 r c (by omega)]
            by_cases hri : r.1 = i + 1
            · rw [show toMat coef h r c = elt coef r.1 c.1 from rfl, hri, hci]
              rw [hdiag (i + 1) hi1h]
              rw [if_pos (Fin.ext (by omega))]
            · rw [show toMat coef h r c = elt coef r.1 c.1 from rfl, hci]
              rw [htri (i + 1) r.1 (by omega) (by omega) r.2]
              rw [if_neg (fun hcon => hri (by
                have := congrArg Fin.val hcon
                omega))]
          · rw [hInv2 r c (by omega)]

/-! ### C3: inverse -/

/-- C3: on every rectangular nonempty matrix over a field: a non-square
matrix gives the NotSquare error; a square matrix with a multiplicative
inverse gives Ok of a matrix b with m * b = identity(m.height); a square
matrix without a multiplicative inverse gives the Singular error. -/
theorem inverse_spec [Field α] [DecidableEq α] (m : Matrix α)
    (hrect : Rect m.entries m.width) (hpos : 0 < m.height) :
    (¬ m.is_square = true → m.inverse = .error .NotSquare) ∧
    (m.is_square = true →
      ((∃ B, toMat m.entries m.height * B = 1) →
        ∃ b, m.inverse = .ok b ∧ m.mul b = some (Matrix.identity m.height)) ∧
      (¬ (∃ B, toMat m.entries m.height * B = 1) →
        m.inverse = .error .Singular)) := by
  constructor
  · intro hns
    rw [Matrix.inverse, if_neg hns]
  · intro hsq
    have hhw : m.height = m.width := by
      rw [Matrix.is_square] at hsq
      exact beq_iff_eq.1 hsq
    set h := m.height with hh
    have hrect2 : Rect m.entries h := by rw [hhw]; exact hrect
    have hlen2 : m.entries.length = h := rfl
    set A := toMat m.entries h with hA
    have hwh : m.width = h := hhw.symm
    have hfwd0 : toMat m.entries h
        = toMat (Matrix.identity h : Matrix α).entries h * A := by
      rw [toMat_identity, one_mul]
    have hdetid : (toMat (Matrix.identity h : Matrix α).entries h).det ≠ 0 := by
      rw [toMat_identity, Matrix.det_one]
      exact one_ne_zero
    have hfwdmain := invFwdGo_eq h hpos A (h - 1) 0 m.entries
      (Matrix.identity h : Matrix α).entries (by omega) hrect2 hlen2
      (identity_rect h) (identity_length h)
      (fun c r hc _ _ => absurd hc (Nat.not_lt_zero c)) hfwd0 hdetid
    rcases hfwd : invFwdGo h h (h - 1) 0 m.entries
        (Matrix.identity h : Matrix α).entries with e | ⟨rows, out⟩
    · obtain ⟨he, hdet0⟩ := hfwdmain.1 e hfwd
      have hres : m.inverse = .error .Singular := by
        rw [Matrix.inverse, if_pos hsq, hwh, ← hh]
        simp only [hfwd, he]
      constructor
      · intro hB
        obtain ⟨B, hB⟩ := hB
        have hone : A.det * B.det = 1 := by
          rw [← Matrix.det_mul A B, hB, Matrix.det_one]
        exact absurd hdet0 (left_ne_zero_of_mul_eq_one hone)
      · intro _
        exact hres
    · obtain ⟨f1, f2, f3, f4, f5, f6, f7⟩ := hfwdmain.2 rows out hfwd
      have hnormmain := invNormGo_eq h A (List.range h) rows out
        (List.nodup_range h) (fun j hj => List.mem_range.1 hj) f1 f2 f3 f4 f5 f6 f7
      rcases hnorm : invNormGo (List.range h) rows out with e | ⟨rows2, out2⟩
      · obtain ⟨he, hdet0⟩ := hnormmain.1 e hnorm
        have hres : m.inverse = .error .Singular := by
          rw [Matrix.inverse, if_pos hsq, hwh, ← hh]
          simp only [hfwd, hnorm, he]
        constructor
        · intro hB
          obtain ⟨B, hB⟩ := hB
          have hone : A.det * B.det = 1 := by
            rw [← Matrix.det_mul A B, hB, Matrix.det_one]
          exact absurd hdet0 (left_ne_zero_of_mul_eq_one hone)
        · intro _
          exact hres
      · obtain ⟨m1, m2, m3, m4, m5, m6, m7, m8⟩ := hnormmain.2 rows2 out2 hnorm
        have hdiag : ∀ k, k < h → elt rows2 k k = 1 :=
          fun k hk => m8 k (List.mem_range.2 hk)
        have hres : m.inverse = .ok ⟨invBackGo rows2 h (h - 1) out2⟩ := by
          rw [Matrix.inverse, if_pos hsq, hwh, ← hh]
          simp only [hfwd, hnorm]
        obtain ⟨b1, b2⟩ := invBackGo_len_rect rows2 h h h (h - 1) out2
          (by omega) m3 m4
        have hBA : toMat (invBackGo rows2 h (h - 1) out2) h * A = 1 := by
          rw [toMat_invBackGo rows2 h A (h - 1) out2 rows2 (by omega) hpos
            m3 m4 m1 m2 m6.symm]
          exact invBackGo_self rows2 h hpos m5 hdiag (h - 1) rows2 (by omega) m1 m2
            (fun r c _ => rfl)
            (fun r c hc => absurd hc (by have := c.2; omega))
        have hAB : A * toMat (invBackGo rows2 h (h - 1) out2) h = 1 :=
          Matrix.mul_eq_one_comm.2 hBA
        have hmul : m.mul ⟨invBackGo rows2 h (h - 1) out2⟩
            = some (Matrix.identity h) := by
          obtain ⟨c, hc1, hc2, hc3, hc4⟩ := mul_toMat m ⟨invBackGo rows2 h (h - 1) out2⟩
            h hpos hrect2 hlen2 b1 b2
          rw [hc1]
          congr 1
          have hcid : toMat c.entries h = toMat (Matrix.identity h : Matrix α).entries h := by
            rw [hc4, toMat_identity]
            exact hAB
          have := toMat_inj c.entries (Matrix.identity h : Matrix α).entries h
            hc2 hc3 (identity_rect h) (identity_length h) hcid
          obtain ⟨ce⟩ := c
          rw [Matrix.mk.injEq]
          exact this
        constructor
        · intro _
          exact ⟨⟨invBackGo rows2 h (h - 1) out2⟩, hres, hmul⟩
        · intro hno
          exact absurd ⟨toMat (invBackGo rows2 h (h - 1) out2) h, hAB⟩ hno

/-- C3 witness: the inverse specification at a concrete invertible rational
matrix. -/
theorem inverse_spec_witness :
    (¬ (⟨[[1, 2], [3, 4]]⟩ : Matrix ℚ).is_square = true →
      (⟨[[1, 2], [3, 4]]⟩ : Matrix ℚ).inverse = .error .NotSquare) ∧
    ((⟨[[1, 2], [3, 4]]⟩ : Matrix ℚ).is_square = true →
      ((∃ B, toMat (⟨[[1, 2], [3, 4]]⟩ : Matrix ℚ).entries
            (⟨[[1, 2], [3, 4]]⟩ : Matrix ℚ).height * B = 1) →
        ∃ b, (⟨[[1, 2], [3, 4]]⟩ : Matrix ℚ).inverse = .ok b ∧
          (⟨[[1, 2], [3, 4]]⟩ : Matrix ℚ).mul b
            = some (Matrix.identity (⟨[[1, 2], [3, 4]]⟩ : Matrix ℚ).height)) ∧
      (¬ (∃ B, toMat (⟨[[1, 2], [3, 4]]⟩ : Matrix ℚ).entries
            (⟨[[1, 2], [3, 4]]⟩ : Matrix ℚ).height * B = 1) →
        (⟨[[1, 2], [3, 4]]⟩ : Matrix ℚ).inverse = .error .Singular)) :=
  inverse_spec (⟨[[1, 2], [3, 4]]⟩ : Matrix ℚ)
    (by intro r hr; fin_cases hr <;> rfl) (by norm_num [Matrix.height])

end MatrixBasic